import Mathlib

namespace Pkr

inductive Val where
  | none
  | int (n : Int)
  | str (s : String)
  | list (xs : List Val)
  | dict (kvs : List (String × Val))

mutual

def Val.deq (a b : Val) : Decidable (a = b) :=
  match a, b with
  | Val.none, Val.none => isTrue rfl
  | Val.int m, Val.int n =>
    match decEq m n with
    | isTrue h => isTrue (by rw [h])
    | isFalse h => isFalse (by intro q; cases q; exact h rfl)
  | Val.str s, Val.str t =>
    match decEq s t with
    | isTrue h => isTrue (by rw [h])
    | isFalse h => isFalse (by intro q; cases q; exact h rfl)
  | Val.list xs, Val.list ys =>
    match Val.deqList xs ys with
    | isTrue h => isTrue (by rw [h])
    | isFalse h => isFalse (by intro q; cases q; exact h rfl)
  | Val.dict xs, Val.dict ys =>
    match Val.deqDict xs ys with
    | isTrue h => isTrue (by rw [h])
    | isFalse h => isFalse (by intro q; cases q; exact h rfl)
  | Val.none, Val.int _ => isFalse (fun h => Val.noConfusion h)
  | Val.none, Val.str _ => isFalse (fun h => Val.noConfusion h)
  | Val.none, Val.list _ => isFalse (fun h => Val.noConfusion h)
  | Val.none, Val.dict _ => isFalse (fun h => Val.noConfusion h)
  | Val.int _, Val.none => isFalse (fun h => Val.noConfusion h)
  | Val.int _, Val.str _ => isFalse (fun h => Val.noConfusion h)
  | Val.int _, Val.list _ => isFalse (fun h => Val.noConfusion h)
  | Val.int _, Val.dict _ => isFalse (fun h => Val.noConfusion h)
  | Val.str _, Val.none => isFalse (fun h => Val.noConfusion h)
  | Val.str _, Val.int _ => isFalse (fun h => Val.noConfusion h)
  | Val.str _, Val.list _ => isFalse (fun h => Val.noConfusion h)
  | Val.str _, Val.dict _ => isFalse (fun h => Val.noConfusion h)
  | Val.list _, Val.none => isFalse (fun h => Val.noConfusion h)
  | Val.list _, Val.int _ => isFalse (fun h => Val.noConfusion h)
  | Val.list _, Val.str _ => isFalse (fun h => Val.noConfusion h)
  | Val.list _, Val.dict _ => isFalse (fun h => Val.noConfusion h)
  | Val.dict _, Val.none => isFalse (fun h => Val.noConfusion h)
  | Val.dict _, Val.int _ => isFalse (fun h => Val.noConfusion h)
  | Val.dict _, Val.str _ => isFalse (fun h => Val.noConfusion h)
  | Val.dict _, Val.list _ => isFalse (fun h => Val.noConfusion h)

def Val.deqList (xs ys : List Val) : Decidable (xs = ys) :=
  match xs, ys with
  | [], [] => isTrue rfl
  | x :: xs, y :: ys =>
    match Val.deq x y, Val.deqList xs ys with
    | isTrue h1, isTrue h2 => isTrue (by rw [h1, h2])
    | isFalse h1, _ => isFalse (by intro q; cases q; exact h1 rfl)
    | _, isFalse h2 => isFalse (by intro q; cases q; exact h2 rfl)
  | [], _ :: _ => isFalse (fun h => List.noConfusion h)
  | _ :: _, [] => isFalse (fun h => List.noConfusion h)

def Val.deqDict (xs ys : List (String × Val)) : Decidable (xs = ys) :=
  match xs, ys with
  | [], [] => isTrue rfl
  | (k, v) :: xs, (l, w) :: ys =>
    match decEq k l, Val.deq v w, Val.deqDict xs ys with
    | isTrue h0, isTrue h1, isTrue h2 => isTrue (by rw [h0, h1, h2])
    | isFalse h0, _, _ => isFalse (by intro q; cases q; exact h0 rfl)
    | _, isFalse h1, _ => isFalse (by intro q; cases q; exact h1 rfl)
    | _, _, isFalse h2 => isFalse (by intro q; cases q; exact h2 rfl)
  | [], _ :: _ => isFalse (fun h => List.noConfusion h)
  | _ :: _, [] => isFalse (fun h => List.noConfusion h)

end

instance : DecidableEq Val := Val.deq

inductive PyErr where
  | typeError
  | attributeError
  | indexError
  | valueError
  | incorrectPassword
  | passwordRequired
  | fileNotFound
  | recursionError
deriving DecidableEq

def dictGetD (kvs : List (String × Val)) (k : String) (d : Val) : Val :=
  match kvs.lookup k with
  | some v => v
  | Option.none => d

def listInfixChk (n h : List Char) : Bool :=
  match h with
  | [] => n.isEmpty
  | _ :: t => n.isPrefixOf h || listInfixChk n t

def pyContains (container x : Val) : Except PyErr Bool :=
  match container with
  | Val.list ys => Except.ok (ys.contains x)
  | Val.dict kvs =>
    match x with
    | Val.str s => Except.ok (kvs.any (fun kv => kv.fst = s))
    | Val.int _ => Except.ok false
    | Val.none => Except.ok false
    | _ => Except.error PyErr.typeError
  | Val.str s =>
    match x with
    | Val.str t => Except.ok (listInfixChk t.toList s.toList)
    | _ => Except.error PyErr.typeError
  | _ => Except.error PyErr.typeError

def pyFilterNotIn (container : Val) : List Val → Except PyErr (List Val)
  | [] => Except.ok []
  | x :: xs => do
    let b ← pyContains container x
    let r ← pyFilterNotIn container xs
    Except.ok (if b then r else x :: r)

def diffItems (pkvs : List (String × Val)) (items : List (String × Val)) :
    Except PyErr (List (String × Val)) :=
  match items with
  | [] => Except.ok []
  | (key, value) :: rest =>
    if dictGetD pkvs key Val.none = Val.none then do
      let r ← diffItems pkvs rest
      Except.ok ((key, value) :: r)
    else
      match value with
      | Val.dict cs =>
        if cs.isEmpty then diffItems pkvs rest
        else
          match dictGetD pkvs key Val.none with
          | Val.dict ps => do
            let d ← diffItems ps cs
            let r ← diffItems pkvs rest
            Except.ok (if d.isEmpty then r else (key, Val.dict d) :: r)
          | _ => Except.error PyErr.attributeError
      | Val.list xs => do
        let fl ← pyFilterNotIn (dictGetD pkvs key Val.none) xs
        let r ← diffItems pkvs rest
        Except.ok (if fl.isEmpty then r else (key, Val.list fl) :: r)
      | _ => do
        let r ← diffItems pkvs rest
        Except.ok (if value = dictGetD pkvs key Val.none then r else (key, value) :: r)
termination_by sizeOf items
decreasing_by all_goals (simp_wf <;> omega)

def diff (previous current : Val) : Except PyErr Val :=
  match current with
  | Val.dict ckvs =>
    match ckvs with
    | [] => Except.ok (Val.dict [])
    | _ :: _ =>
      match previous with
      | Val.dict pkvs => (diffItems pkvs ckvs).map Val.dict
      | _ => Except.error PyErr.attributeError
  | _ => Except.error PyErr.attributeError

def blockSize : Nat := 16

def chunks16 (l : List Nat) : List (List Nat) :=
  if l.isEmpty then [] else l.take 16 :: chunks16 (l.drop 16)
termination_by l.length
decreasing_by
  simp_wf
  cases l with
  | nil => simp at *
  | cons a t => simp

def cbcEnc (E : List Nat → List Nat) (prev : List Nat) : List (List Nat) → List (List Nat)
  | [] => []
  | b :: bs =>
    E (List.zipWith Nat.xor prev b) :: cbcEnc E (E (List.zipWith Nat.xor prev b)) bs

def cbcDec (D : List Nat → List Nat) (prev : List Nat) : List (List Nat) → List (List Nat)
  | [] => []
  | c :: cs => List.zipWith Nat.xor prev (D c) :: cbcDec D c cs

def encrypt_with_key (E : List Nat → List Nat) (i_v source : List Nat) : List Nat :=
  let padding := blockSize - source.length % blockSize
  let src := source ++ List.replicate padding padding
  i_v ++ (cbcEnc E i_v (chunks16 src)).flatten

def pySliceLast (l : List Nat) (p : Nat) : List Nat :=
  if p = 0 then l else l.drop (l.length - p)

def pyStripLast (l : List Nat) (p : Nat) : List Nat :=
  if p = 0 then [] else l.take (l.length - p)

def cbcData (D : List Nat → List Nat) (source : List Nat) : List Nat :=
  (cbcDec D (source.take blockSize) (chunks16 (source.drop blockSize))).flatten

def decrypt_with_key (D : List Nat → List Nat) (source : List Nat) : Except PyErr (List Nat) :=
  if source.length < blockSize then Except.error PyErr.valueError
  else if (source.length - blockSize) % blockSize ≠ 0 then Except.error PyErr.valueError
  else
    let data := cbcData D source
    match data.getLast? with
    | Option.none => Except.error PyErr.indexError
    | some padding =>
      if pySliceLast data padding = List.replicate padding padding then
        Except.ok (pyStripLast data padding)
      else Except.error PyErr.incorrectPassword

abbrev SwapFS := List (String × List Nat)

def fsRead (fs : SwapFS) (p : String) : Option (List Nat) :=
  List.lookup p fs

def fsWrite (fs : SwapFS) (p : String) (data : List Nat) : SwapFS :=
  if (fs : List (String × List Nat)).any (fun e => e.fst = p) then
    (fs : List (String × List Nat)).map (fun e => if e.fst = p then (p, data) else e)
  else fs ++ [(p, data)]

def fsUnlink (fs : SwapFS) (p : String) : SwapFS :=
  (fs : List (String × List Nat)).filter (fun e => e.fst ≠ p)

def encrypt_file (cipherOf : String → List Nat → List Nat) (i_v : List Nat) (fs : SwapFS)
    (file : String) (password : Option String) : Except PyErr (List Nat) :=
  match password with
  | Option.none => Except.error PyErr.passwordRequired
  | some pw =>
    match fsRead fs file with
    | some data => Except.ok (encrypt_with_key (cipherOf pw) i_v data)
    | Option.none => Except.error PyErr.fileNotFound

def encrypt_swap (cipherOf : String → List Nat → List Nat) (i_v : List Nat) (fs : SwapFS)
    (file file_enc : String) (password : Option String) : Except PyErr Unit × SwapFS :=
  match encrypt_file cipherOf i_v fs file password with
  | Except.error e => (Except.error e, fs)
  | Except.ok enc => (Except.ok (), fsUnlink (fsWrite fs file_enc enc) file)

def decrypt_file (decipherOf : String → List Nat → List Nat) (fs : SwapFS)
    (file : String) (password : Option String) : Except PyErr (List Nat) :=
  match password with
  | Option.none => Except.error PyErr.passwordRequired
  | some pw =>
    match fsRead fs file with
    | some data_enc => decrypt_with_key (decipherOf pw) data_enc
    | Option.none => Except.error PyErr.fileNotFound

def decrypt_swap (decipherOf : String → List Nat → List Nat) (fs : SwapFS)
    (file file_enc : String) (password : Option String) : Except PyErr Unit × SwapFS :=
  match decrypt_file decipherOf fs file_enc password with
  | Except.error e => (Except.error e, fs)
  | Except.ok data => (Except.ok (), fsUnlink (fsWrite fs file data) file_enc)

def isScalar : Val → Bool
  | Val.list _ => false
  | Val.dict _ => false
  | _ => true

def prevLookup (previous : Val) (k : String) : Val :=
  match previous with
  | Val.dict pkvs => dictGetD pkvs k Val.none
  | _ => Val.none

def subVal : Val → Val → Prop
  | Val.list xs, Val.list cs => ∀ x ∈ xs, x ∈ cs
  | Val.dict d, Val.dict cs => ∀ kv ∈ d, ∃ cv, (kv.fst, cv) ∈ cs ∧ subVal kv.snd cv
  | a, b => a = b
termination_by v _ => sizeOf v
decreasing_by
  simp_wf
  rename_i hkv
  have h1 := List.sizeOf_lt_of_mem hkv
  obtain ⟨k1, v1⟩ := kv
  simp at h1 ⊢
  omega

def pyGetAttrD (d : Val) (k : String) (fallback : Val) : Except PyErr Val :=
  match d with
  | Val.dict kvs => Except.ok (dictGetD kvs k fallback)
  | _ => Except.error PyErr.attributeError

def ask_input (provider : String → String) (name : String) : Val :=
  Val.str (provider ("Missing meta(" ++ name ++ "):"))

def pyDictLookup (d : Val) (key : Val) : Val :=
  match d, key with
  | Val.dict kvs, Val.str s => dictGetD kvs s Val.none
  | _, _ => Val.none

def ensure_key_present (provider : String → String) (key default data : Val)
    (path : String) : Except PyErr Val := do
  let inData ← pyContains data key
  if inData then
    match data with
    | Val.dict _ => Except.ok (pyDictLookup data key)
    | _ => Except.error PyErr.attributeError
  else
    let inDef ← pyContains default key
    if inDef then
      match default with
      | Val.dict _ => Except.ok (pyDictLookup default key)
      | _ => Except.error PyErr.attributeError
    else
      match key with
      | Val.str s => Except.ok (ask_input provider (path ++ s))
      | _ => Except.error PyErr.typeError

def dictUpdate (d1 d2 : List (String × Val)) : List (String × Val) :=
  d2.foldl (fun acc kv =>
    if acc.any (fun e => e.fst = kv.fst) then
      acc.map (fun e => if e.fst = kv.fst then kv else e)
    else acc ++ [kv]) d1

def edmDictNone (provider : String → String) (kvs : List (String × Val))
    (defaults data : Val) (path : String) : Except PyErr (List (String × Val)) :=
  match kvs with
  | [] => Except.ok []
  | (k, v) :: rest =>
    if v = Val.none then do
      let val ← ensure_key_present provider (Val.str k) defaults data path
      let rs ← edmDictNone provider rest defaults data path
      Except.ok ((k, val) :: rs)
    else edmDictNone provider rest defaults data path

mutual

def ensure_definition_matches (provider : String → String) :
    Nat → Val → Val → Val → String → Except PyErr (List (String × Val))
  | 0, _, _, _, _ => Except.error PyErr.recursionError
  | fuel + 1, definition, defaults, data, path =>
    match definition with
    | Val.dict kvs => do
      let part1 ← edmDictNonNone provider fuel kvs defaults data path
      let part2 ← edmDictNone provider kvs defaults data path
      Except.ok (dictUpdate part1 part2)
    | Val.list xs => edmList provider fuel xs defaults data path []
    | d => do
      let v ← ensure_key_present provider d defaults data path
      match d with
      | Val.str s => Except.ok [(s, v)]
      | _ => Except.error PyErr.typeError

def edmDictNonNone (provider : String → String) :
    Nat → List (String × Val) → Val → Val → String → Except PyErr (List (String × Val))
  | 0, _, _, _, _ => Except.error PyErr.recursionError
  | _ + 1, [], _, _, _ => Except.ok []
  | fuel + 1, (k, v) :: rest, defaults, data, path =>
    if v = Val.none then edmDictNonNone provider fuel rest defaults data path
    else do
      let defk ← pyGetAttrD defaults k (Val.list [])
      let datk ← pyGetAttrD data k (Val.dict [])
      let r ← ensure_definition_matches provider fuel v defk datk (path ++ k ++ "/")
      let rs ← edmDictNonNone provider fuel rest defaults data path
      Except.ok ((k, Val.dict r) :: rs)

def edmList (provider : String → String) :
    Nat → List Val → Val → Val → String → List (String × Val) →
      Except PyErr (List (String × Val))
  | 0, _, _, _, _, _ => Except.error PyErr.recursionError
  | _ + 1, [], _, _, _, acc => Except.ok acc
  | fuel + 1, x :: rest, defaults, data, path, acc => do
    let r ← ensure_definition_matches provider fuel x defaults data path
    edmList provider fuel rest defaults data path (dictUpdate acc r)

end

def dedup_list {α : Type} [DecidableEq α] (order src : List α) : List α × List α :=
  match order with
  | [] => ([], src)
  | item :: rest =>
    if src.count item ≠ 1 then
      (item :: (dedup_list rest (src.erase item)).fst, (dedup_list rest (src.erase item)).snd)
    else dedup_list rest src

inductive PVal where
  | none
  | int (n : Int)
  | str (s : String)
  | ref (a : Nat)
deriving DecidableEq

inductive Obj where
  | dict (kvs : List (String × PVal))
  | list (xs : List PVal)
deriving DecidableEq

structure Store where
  objs : List (Nat × Obj)
  next : Nat
deriving DecidableEq

def lookupPairs : List (Nat × Obj) → Nat → Option Obj
  | [], _ => Option.none
  | e :: rest, a => if e.fst = a then some e.snd else lookupPairs rest a

def Store.get (S : Store) (a : Nat) : Option Obj :=
  lookupPairs S.objs a

def Store.set (S : Store) (a : Nat) (o : Obj) : Store :=
  { objs := S.objs.map (fun e => if e.fst = a then (a, o) else e), next := S.next }

def Store.alloc (S : Store) (o : Obj) : Store :=
  { objs := S.objs ++ [(S.next, o)], next := S.next + 1 }

inductive MRes (α : Type) where
  | ok (v : α)
  | err (e : PyErr)
  | fuelOut
deriving DecidableEq

def pyFalsy (S : Store) (v : PVal) : Bool :=
  match v with
  | PVal.none => true
  | PVal.int n => n = 0
  | PVal.str s => s.isEmpty
  | PVal.ref a =>
    match S.get a with
    | some (Obj.dict kvs) => kvs.isEmpty
    | some (Obj.list xs) => xs.isEmpty
    | Option.none => false

def PVal.isHashable : PVal → Bool
  | PVal.ref _ => false
  | _ => true

def dedupFirst (xs : List PVal) : List PVal :=
  xs.foldl (fun acc x => if acc.contains x then acc else acc ++ [x]) []

def dictSet (kvs : List (String × PVal)) (k : String) (v : PVal) : List (String × PVal) :=
  if kvs.any (fun e => e.fst = k) then kvs.map (fun e => if e.fst = k then (k, v) else e)
  else kvs ++ [(k, v)]

def isDictVal (S : Store) (v : Option PVal) : Bool :=
  match v with
  | some (PVal.ref b) =>
    match S.get b with
    | some (Obj.dict _) => true
    | _ => false
  | _ => false

def isListVal (S : Store) (v : PVal) : Bool :=
  match v with
  | PVal.ref b =>
    match S.get b with
    | some (Obj.list _) => true
    | _ => false
  | _ => false

def toUnit (r : MRes PVal × Store) : MRes Unit × Store :=
  match r with
  | (MRes.ok _, S) => (MRes.ok (), S)
  | (MRes.err e, S) => (MRes.err e, S)
  | (MRes.fuelOut, S) => (MRes.fuelOut, S)

def mergeListCombine (key : String) (xs : List PVal) (la : Nat) (srcElems : List PVal)
    (da : Nat) (dkvs : List (String × PVal)) (S : Store) : MRes Unit × Store :=
  if (xs ++ srcElems).all PVal.isHashable then
    (MRes.ok (), (S.alloc (Obj.list (dedupFirst (xs ++ srcElems)))).set da
      (Obj.dict (dictSet dkvs key (PVal.ref S.next))))
  else
    (MRes.ok (), S.set la (Obj.list (xs ++ srcElems)))

def mergeListVal (key : String) (srcElems : List PVal) (value destination : PVal)
    (overwrite : Bool) (S : Store) : MRes Unit × Store :=
  match destination with
  | PVal.ref da =>
    match S.get da with
    | some (Obj.dict dkvs) =>
      match List.lookup key dkvs with
      | some dstVal =>
        if overwrite && !(isListVal S dstVal) then
          let f := S.next
          let S2 := (S.alloc (Obj.list [])).set da (Obj.dict (dictSet dkvs key (PVal.ref f)))
          mergeListCombine key [] f srcElems da (dictSet dkvs key (PVal.ref f)) S2
        else
          match dstVal with
          | PVal.ref la =>
            match S.get la with
            | some (Obj.list xs) => mergeListCombine key xs la srcElems da dkvs S
            | _ => (MRes.err PyErr.attributeError, S)
          | _ => (MRes.err PyErr.attributeError, S)
      | Option.none => (MRes.ok (), S.set da (Obj.dict (dictSet dkvs key value)))
    | some (Obj.list _) => (MRes.err PyErr.typeError, S)
    | Option.none => (MRes.err PyErr.valueError, S)
  | _ => (MRes.err PyErr.typeError, S)

def mergeScalarVal (key : String) (value destination : PVal) (overwrite : Bool)
    (S : Store) : MRes Unit × Store :=
  if overwrite then
    match destination with
    | PVal.ref da =>
      match S.get da with
      | some (Obj.dict dkvs) => (MRes.ok (), S.set da (Obj.dict (dictSet dkvs key value)))
      | some (Obj.list _) => (MRes.err PyErr.typeError, S)
      | Option.none => (MRes.err PyErr.valueError, S)
    | _ => (MRes.err PyErr.typeError, S)
  else
    match destination with
    | PVal.ref da =>
      match S.get da with
      | some (Obj.dict dkvs) =>
        match List.lookup key dkvs with
        | some _ => (MRes.ok (), S)
        | Option.none => (MRes.ok (), S.set da (Obj.dict (dictSet dkvs key value)))
      | some (Obj.list xs) =>
        if xs.contains (PVal.str key) then (MRes.ok (), S)
        else (MRes.err PyErr.typeError, S)
      | Option.none => (MRes.err PyErr.valueError, S)
    | PVal.str s =>
      if listInfixChk key.toList s.toList then (MRes.ok (), S)
      else (MRes.err PyErr.typeError, S)
    | _ => (MRes.err PyErr.typeError, S)

mutual

def merge : Nat → PVal → PVal → Bool → Store → MRes PVal × Store
  | 0, _, _, _, S => (MRes.fuelOut, S)
  | fuel + 1, source, destination, overwrite, S =>
    if pyFalsy S source then (MRes.ok destination, S)
    else
      match destination with
      | PVal.none => mergeTruthy fuel source (PVal.ref S.next) overwrite (S.alloc (Obj.dict []))
      | _ => mergeTruthy fuel source destination overwrite S

def mergeTruthy : Nat → PVal → PVal → Bool → Store → MRes PVal × Store
  | 0, _, _, _, S => (MRes.fuelOut, S)
  | fuel + 1, source, destination, overwrite, S =>
    match source with
    | PVal.ref a =>
      match S.get a with
      | some (Obj.dict kvs) =>
        match mergeItems fuel kvs destination overwrite S with
        | (MRes.ok _, S2) => (MRes.ok destination, S2)
        | (MRes.err e, S2) => (MRes.err e, S2)
        | (MRes.fuelOut, S2) => (MRes.fuelOut, S2)
      | some (Obj.list _) => (MRes.err PyErr.attributeError, S)
      | Option.none => (MRes.err PyErr.valueError, S)
    | _ => (MRes.err PyErr.attributeError, S)

def mergeItems : Nat → List (String × PVal) → PVal → Bool → Store → MRes Unit × Store
  | 0, _, _, _, S => (MRes.fuelOut, S)
  | _ + 1, [], _, _, S => (MRes.ok (), S)
  | fuel + 1, (key, value) :: rest, destination, overwrite, S =>
    match mergeOne fuel key value destination overwrite S with
    | (MRes.ok _, S2) => mergeItems fuel rest destination overwrite S2
    | (MRes.err e, S2) => (MRes.err e, S2)
    | (MRes.fuelOut, S2) => (MRes.fuelOut, S2)

def mergeOne : Nat → String → PVal → PVal → Bool → Store → MRes Unit × Store
  | 0, _, _, _, _, S => (MRes.fuelOut, S)
  | fuel + 1, key, value, destination, overwrite, S =>
    match value with
    | PVal.ref va =>
      match S.get va with
      | some (Obj.dict _) => mergeDictVal fuel key value destination overwrite S
      | some (Obj.list xs) => mergeListVal key xs value destination overwrite S
      | Option.none => (MRes.err PyErr.valueError, S)
    | _ => mergeScalarVal key value destination overwrite S

def mergeDictVal : Nat → String → PVal → PVal → Bool → Store → MRes Unit × Store
  | 0, _, _, _, _, S => (MRes.fuelOut, S)
  | fuel + 1, key, value, destination, overwrite, S =>
    match destination with
    | PVal.ref da =>
      match S.get da with
      | some (Obj.dict dkvs) =>
        if overwrite && !(isDictVal S (List.lookup key dkvs)) then
          let f := S.next
          let S2 := (S.alloc (Obj.dict [])).set da (Obj.dict (dictSet dkvs key (PVal.ref f)))
          toUnit (merge fuel value (PVal.ref f) overwrite S2)
        else
          match List.lookup key dkvs with
          | some w => toUnit (merge fuel value w overwrite S)
          | Option.none =>
            let f := S.next
            let S2 := (S.alloc (Obj.dict [])).set da (Obj.dict (dictSet dkvs key (PVal.ref f)))
            toUnit (merge fuel value (PVal.ref f) overwrite S2)
      | some (Obj.list _) => (MRes.err PyErr.attributeError, S)
      | Option.none => (MRes.err PyErr.valueError, S)
    | _ => (MRes.err PyErr.attributeError, S)

end

mutual

def readout : Nat → Store → PVal → Option Val
  | 0, _, _ => Option.none
  | fuel + 1, S, v =>
    match v with
    | PVal.none => some Val.none
    | PVal.int n => some (Val.int n)
    | PVal.str s => some (Val.str s)
    | PVal.ref a =>
      match S.get a with
      | some (Obj.dict kvs) => (readoutDict fuel S kvs).map Val.dict
      | some (Obj.list xs) => (readoutList fuel S xs).map Val.list
      | Option.none => Option.none

def readoutDict : Nat → Store → List (String × PVal) → Option (List (String × Val))
  | 0, _, _ => Option.none
  | _ + 1, _, [] => some []
  | fuel + 1, S, (k, v) :: rest => do
    let a ← readout fuel S v
    let b ← readoutDict fuel S rest
    some ((k, a) :: b)

def readoutList : Nat → Store → List PVal → Option (List Val)
  | 0, _, _ => Option.none
  | _ + 1, _, [] => some []
  | fuel + 1, S, v :: rest => do
    let a ← readout fuel S v
    let b ← readoutList fuel S rest
    some (a :: b)

end

def mergeS6 : Store :=
  { objs := [(0, Obj.dict [("k", PVal.ref 1)]), (1, Obj.list [PVal.int 1, PVal.int 2]),
             (2, Obj.dict [("k", PVal.ref 3)]), (3, Obj.list [PVal.int 2, PVal.int 3])],
    next := 4 }

def mergeS9 : Store :=
  { objs := [(0, Obj.dict []), (1, Obj.dict [("a", PVal.int 1)]),
             (2, Obj.dict [("a", PVal.int 2)])],
    next := 3 }

def mergeS5 : Store :=
  { objs := [(0, Obj.dict [("a", PVal.ref 1)]), (1, Obj.list [PVal.int 1, PVal.int 1])],
    next := 2 }

mutual

inductive DTree where
  | scalar (v : PVal)
  | dnode (a : Nat) (kids : DKids)
  | lnode (a : Nat)

inductive DKids where
  | nil
  | cons (k : String) (t : DTree) (rest : DKids)

end

mutual

def addrsT : DTree → List Nat
  | DTree.scalar _ => []
  | DTree.dnode a kids => a :: addrsK kids
  | DTree.lnode a => [a]

def addrsK : DKids → List Nat
  | DKids.nil => []
  | DKids.cons _ t rest => addrsT t ++ addrsK rest

end

mutual

def reprOk (S : Store) : PVal → DTree → Bool
  | v, DTree.scalar w =>
    v = w && (match v with
      | PVal.ref _ => false
      | _ => true)
  | PVal.ref a, DTree.dnode a2 kids =>
    a = a2 && (match S.get a with
      | some (Obj.dict kvs) => reprKids S kvs kids
      | _ => false)
  | PVal.ref a, DTree.lnode a2 =>
    a = a2 && (match S.get a with
      | some (Obj.list _) => true
      | _ => false)
  | _, _ => false

def reprKids (S : Store) : List (String × PVal) → DKids → Bool
  | [], DKids.nil => true
  | (k, v) :: rest, DKids.cons k2 t kr => k = k2 && reprOk S v t && reprKids S rest kr
  | _, _ => false

end

def objVals : Obj → List PVal
  | Obj.dict kvs => kvs.map Prod.snd
  | Obj.list xs => xs

inductive Reaches (S : Store) : PVal → Nat → Prop where
  | here (a : Nat) : Reaches S (PVal.ref a) a
  | via (a : Nat) (o : Obj) (v : PVal) (b : Nat) :
      S.get a = some o → v ∈ objVals o → Reaches S v b → Reaches S (PVal.ref a) b

def objDictNodup : Obj → Prop
  | Obj.dict kvs => (kvs.map Prod.fst).Nodup
  | Obj.list _ => True

instance : DecidablePred objDictNodup
  | Obj.dict kvs => inferInstanceAs (Decidable ((kvs.map Prod.fst).Nodup))
  | Obj.list _ => inferInstanceAs (Decidable True)

def StoreWF (S : Store) : Prop :=
  (S.objs.map Prod.fst).Nodup ∧
  (∀ e ∈ S.objs, e.fst < S.next) ∧
  (∀ e ∈ S.objs, objDictNodup e.snd)

instance (S : Store) : Decidable (StoreWF S) := by
  unfold StoreWF
  infer_instance

def kidTree (k : String) : DKids → DTree
  | DKids.nil => DTree.scalar PVal.none
  | DKids.cons k2 t rest => if k = k2 then t else kidTree k rest

def notDictRef (S : Store) (dst : PVal) : Prop :=
  match dst with
  | PVal.ref da => ∀ kvs, S.get da ≠ some (Obj.dict kvs)
  | _ => True

def kidRegion (kidsF : String → DTree) : List (String × PVal) → List Nat
  | [] => []
  | kv :: rest => addrsT (kidsF kv.fst) ++ kidRegion kidsF rest

def mergeOutT (S R : Store) (prot : List Nat) : Prop :=
  (∀ a, a < S.next → a ∉ prot → R.get a = S.get a) ∧ S.next ≤ R.next ∧ StoreWF R

def mergeOutDa (S R : Store) (da : Nat) (prot : List Nat) (key : String)
    (dkvs : List (String × PVal)) : Prop :=
  (∀ a, a < S.next → a ≠ da → a ∉ prot → R.get a = S.get a) ∧
  S.next ≤ R.next ∧ StoreWF R ∧
  (∃ dkvs2, R.get da = some (Obj.dict dkvs2) ∧
    ∀ k2, k2 ≠ key → List.lookup k2 dkvs2 = List.lookup k2 dkvs)

def Pstmt (fuel : Nat) : Prop := ∀ src dst ov S t, StoreWF S → reprOk S dst t = true →
  (addrsT t).Nodup → (∀ b, Reaches S src b → b < S.next ∧ b ∉ addrsT t) →
  mergeOutT S (merge fuel src dst ov S).2 (addrsT t)

def Qtstmt (fuel : Nat) : Prop := ∀ src dst ov S t, StoreWF S → reprOk S dst t = true →
  (addrsT t).Nodup → (∀ b, Reaches S src b → b < S.next ∧ b ∉ addrsT t) →
  mergeOutT S (mergeTruthy fuel src dst ov S).2 (addrsT t)

def Qistmt (fuel : Nat) : Prop := ∀ items da ov S dkvs kidsF, StoreWF S →
  S.get da = some (Obj.dict dkvs) →
  (∀ kv ∈ items, ∀ w, List.lookup kv.fst dkvs = some w → reprOk S w (kidsF kv.fst) = true) →
  (da :: kidRegion kidsF items).Nodup →
  (items.map Prod.fst).Nodup →
  (∀ kv ∈ items, ∀ b, Reaches S kv.snd b → b < S.next ∧ b ∉ (da :: kidRegion kidsF items)) →
  mergeOutT S (mergeItems fuel items (PVal.ref da) ov S).2 (da :: kidRegion kidsF items) ∧
  (∃ dkvs2, (mergeItems fuel items (PVal.ref da) ov S).2.get da = some (Obj.dict dkvs2) ∧
    ∀ k2, k2 ∉ items.map Prod.fst → List.lookup k2 dkvs2 = List.lookup k2 dkvs)

def Qostmt (fuel : Nat) : Prop := ∀ key value da ov S dkvs tk, StoreWF S →
  S.get da = some (Obj.dict dkvs) →
  (∀ w, List.lookup key dkvs = some w → reprOk S w tk = true) →
  (addrsT tk).Nodup → da ∉ addrsT tk →
  (∀ b, Reaches S value b → b < S.next ∧ b ≠ da ∧ b ∉ addrsT tk) →
  mergeOutDa S (mergeOne fuel key value (PVal.ref da) ov S).2 da (addrsT tk) key dkvs

def Qdstmt (fuel : Nat) : Prop := ∀ key value da ov S dkvs tk, StoreWF S →
  S.get da = some (Obj.dict dkvs) →
  (∀ w, List.lookup key dkvs = some w → reprOk S w tk = true) →
  (addrsT tk).Nodup → da ∉ addrsT tk →
  (∀ b, Reaches S value b → b < S.next ∧ b ≠ da ∧ b ∉ addrsT tk) →
  mergeOutDa S (mergeDictVal fuel key value (PVal.ref da) ov S).2 da (addrsT tk) key dkvs

def c5S : Store :=
  ⟨[(0, Obj.dict [("k", PVal.ref 3)]), (1, Obj.dict [("m", PVal.ref 2)]),
    (2, Obj.list [PVal.int 5]), (3, Obj.list [PVal.int 7])], 4⟩

def renderPath (p : List String) : String :=
  p.foldl (fun acc c => acc ++ "/" ++ c) ""

def pathName (p : List String) : String := p.getLastD ""

def strHasStar (s : String) : Bool := s.toList.contains '*'

def hasStar (p : List String) : Bool := p.any strHasStar

def stemOf (s : String) : String :=
  let cs := s.toList
  if (cs.drop 1).contains '.' then
    let k := cs.reverse.indexOf '.'
    String.mk (cs.take (cs.length - 1 - k))
  else s

structure PFS where
  dirs : List (List String)
  files : List (List String × String)

def isDir (fs : PFS) (p : List String) : Bool := fs.dirs.contains p

def isFile (fs : PFS) (p : List String) : Bool := (fs.files.map Prod.fst).contains p

def readFile (fs : PFS) (p : List String) : String := (fs.files.lookup p).getD ""

def writeFile (fs : PFS) (p : List String) (content : String) : PFS :=
  { fs with files :=
      if (fs.files.map Prod.fst).contains p then
        fs.files.map (fun e => if e.fst = p then (p, content) else e)
      else fs.files ++ [(p, content)] }

def mkdirParents (fs : PFS) (p : List String) : PFS :=
  if fs.dirs.contains p then fs else { fs with dirs := fs.dirs ++ [p] }

def childrenOf (fs : PFS) (p : List String) : List (List String) :=
  (fs.dirs ++ fs.files.map Prod.fst).filter
    (fun q => q.length == p.length + 1 && q.take p.length == p)

def removeExtPath (p : List String) : List String :=
  p.dropLast ++ [stemOf (pathName p)]

def copy (globF : String → List (List String)) (render : List String → String)
    (matcher : String → String → Bool) :
    Nat → List String → List String → List String → List (List String) → Bool → PFS → PFS
  | 0, _, _, _, _, _, fs => fs
  | fuel + 1, path, origin, local_dst, excluded, gen_template, fs =>
    if hasStar path then
      let origin2 := if strHasStar (pathName origin) then origin.dropLast else origin
      (globF (renderPath path)).foldl
        (fun acc path_it =>
          copy globF render matcher fuel path_it path_it
            (local_dst ++ path_it.drop origin2.length) excluded gen_template acc)
        fs
    else if isFile fs path then
      if excluded.contains path then fs
      else
        let dst_path := if path ≠ origin then local_dst ++ path.drop origin.length
          else local_dst
        let fs1 := mkdirParents fs dst_path.dropLast
        if gen_template && (pathName path).endsWith ".template" then
          let dst2 :=
            if !(isDir fs1 dst_path) then
              (if (pathName dst_path).endsWith ".template" then removeExtPath dst_path
               else dst_path)
            else dst_path ++ [stemOf (pathName path)]
          writeFile fs1 dst2 (render path)
        else
          writeFile fs1 dst_path (readFile fs path)
    else if isDir fs path then
      (childrenOf fs path).foldl
        (fun acc child =>
          if !(excluded.any (fun e => matcher (renderPath child) (renderPath e))) then
            copy globF render matcher fuel child origin local_dst excluded gen_template acc
          else acc)
        fs
    else fs

def c3FS : PFS :=
  { dirs := [["src"], ["dst"]],
    files := [(["src", "a.txt"], "A"), (["src", "b.txt"], "B")] }

def matcher_c3 (s p : String) : Bool := s == p

theorem zipXor_zipXor (a : List Nat) : ∀ b : List Nat, a.length = b.length →
    List.zipWith Nat.xor a (List.zipWith Nat.xor a b) = b := by
  induction a with
  | nil =>
    intro b h
    have : b = [] := by
      cases b with
      | nil => rfl
      | cons y ys => simp at h
    simp [this]
  | cons x xs ih =>
    intro b h
    cases b with
    | nil => simp at h
    | cons y ys =>
      simp only [List.zipWith]
      rw [show ∀ u v : Nat, Nat.xor u (Nat.xor u v) = v from fun u v => Nat.xor_cancel_left u v]
      rw [ih ys (by simpa using h)]

theorem cbcDec_cbcEnc (E D : List Nat → List Nat)
    (hE : ∀ b, (E b).length = 16)
    (hED : ∀ b, b.length = 16 → D (E b) = b) :
    ∀ (bs : List (List Nat)) (prev : List Nat), prev.length = 16 →
      (∀ b ∈ bs, b.length = 16) → cbcDec D prev (cbcEnc E prev bs) = bs := by
  intro bs
  induction bs with
  | nil => intro prev _ _; simp [cbcEnc, cbcDec]
  | cons b bs ih =>
    intro prev hprev hall
    have hb : b.length = 16 := hall b (by simp)
    have hzx : (List.zipWith Nat.xor prev b).length = 16 := by
      simp [hprev, hb]
    simp only [cbcEnc, cbcDec]
    rw [hED _ hzx]
    rw [zipXor_zipXor prev b (by rw [hprev, hb])]
    rw [ih _ (hE _) (fun x hx => hall x (by simp [hx]))]

theorem chunks16_join (bs : List (List Nat)) (h : ∀ b ∈ bs, b.length = 16) :
    chunks16 bs.flatten = bs := by
  induction bs with
  | nil => simp [chunks16]
  | cons b bs ih =>
    have hb : b.length = 16 := h b (by simp)
    rw [List.flatten_cons, chunks16]
    have hne : (b ++ bs.flatten).isEmpty = false := by
      cases b with
      | nil => simp at hb
      | cons c cs => simp
    rw [if_neg (by simp [hne])]
    have ht : (b ++ bs.flatten).take 16 = b := by
      rw [← hb, List.take_left]
    have hd : (b ++ bs.flatten).drop 16 = bs.flatten := by
      rw [← hb, List.drop_left]
    rw [ht, hd, ih (fun x hx => h x (by simp [hx]))]

theorem flatten_chunks16 (l : List Nat) : (chunks16 l).flatten = l := by
  induction l using chunks16.induct with
  | case1 l hl =>
    rw [chunks16, if_pos hl]
    simp at hl
    simp [hl]
  | case2 l hl ih =>
    rw [chunks16, if_neg hl]
    rw [List.flatten_cons, ih, List.take_append_drop]

theorem chunks16_mem_length (l : List Nat) :
    l.length % 16 = 0 → ∀ b ∈ chunks16 l, b.length = 16 := by
  induction l using chunks16.induct with
  | case1 l hl =>
    intro h b hb
    rw [chunks16, if_pos hl] at hb
    simp at hb
  | case2 l hl ih =>
    intro h b hb
    rw [chunks16, if_neg hl] at hb
    have hlen : l.length ≠ 0 := by
      cases l with
      | nil => simp at hl
      | cons c cs => simp
    have h16 : 16 ≤ l.length := by omega
    rcases List.mem_cons.mp hb with hb | hb
    · subst hb
      simp [List.length_take]
      omega
    · exact ih (by simp [List.length_drop]; omega) b hb

theorem cbcEnc_mem_length (E : List Nat → List Nat) (hE : ∀ b, (E b).length = 16) :
    ∀ (bs : List (List Nat)) (prev : List Nat), ∀ c ∈ cbcEnc E prev bs, c.length = 16 := by
  intro bs
  induction bs with
  | nil => intro prev c hc; simp [cbcEnc] at hc
  | cons b bs ih =>
    intro prev c hc
    simp only [cbcEnc] at hc
    rcases List.mem_cons.mp hc with h | h
    · subst h; exact hE _
    · exact ih _ c h

theorem flatten_length16 : ∀ bs : List (List Nat), (∀ b ∈ bs, b.length = 16) →
    bs.flatten.length = 16 * bs.length := by
  intro bs
  induction bs with
  | nil => intro _; simp
  | cons b bs ih =>
    intro h
    simp only [List.flatten_cons, List.length_append, List.length_cons]
    rw [h b (by simp), ih (fun x hx => h x (by simp [hx]))]
    ring

theorem getLast?_replicate_ne (n : Nat) (a : Nat) (h : n ≠ 0) :
    (List.replicate n a).getLast? = some a := by
  induction n with
  | zero => simp at h
  | succ m ih =>
    cases m with
    | zero => simp
    | succ k =>
      rw [List.replicate_succ, List.replicate_succ, List.getLast?_cons_cons,
        ← List.replicate_succ]
      exact ih (by omega)

/-- C1: for every block cipher pair (E, D) that maps 16-byte blocks to 16-byte blocks and inverts on
them, every 16-byte IV and every byte string s (including the empty string and block-aligned
strings), decrypt_with_key D (encrypt_with_key E iv s) returns exactly s. -/
theorem encrypt_roundtrip (E D : List Nat → List Nat) (i_v s : List Nat)
    (hE : ∀ b, (E b).length = 16)
    (hED : ∀ b, b.length = 16 → D (E b) = b)
    (hiv : i_v.length = 16) :
    decrypt_with_key D (encrypt_with_key E i_v s) = Except.ok s := by
  have hp1 : 1 ≤ 16 - s.length % 16 := by omega
  have hp16 : 16 - s.length % 16 ≤ 16 := by omega
  set p := 16 - s.length % 16 with hpdef
  set padded := s ++ List.replicate p p with hpaddeddef
  have hplen : padded.length = s.length + p := by simp [hpaddeddef]
  have hpaddedlen : padded.length % 16 = 0 := by rw [hplen]; omega
  have hpbs : ∀ b ∈ chunks16 padded, b.length = 16 := chunks16_mem_length padded hpaddedlen
  set ct := (cbcEnc E i_v (chunks16 padded)).flatten with hctdef
  have hctmem : ∀ c ∈ cbcEnc E i_v (chunks16 padded), c.length = 16 :=
    cbcEnc_mem_length E hE (chunks16 padded) i_v
  have hctlen : ct.length = 16 * (cbcEnc E i_v (chunks16 padded)).length :=
    flatten_length16 _ hctmem
  have henc : encrypt_with_key E i_v s = i_v ++ ct := by
    simp only [encrypt_with_key, blockSize, hctdef, hpaddeddef, hpdef]
  rw [henc]
  have hlen : (i_v ++ ct).length = 16 + ct.length := by simp [hiv]
  have htake : (i_v ++ ct).take blockSize = i_v := by
    rw [blockSize, ← hiv, List.take_left]
  have hdrop : (i_v ++ ct).drop blockSize = ct := by
    rw [blockSize, ← hiv, List.drop_left]
  have hdata : cbcData D (i_v ++ ct) = padded := by
    rw [cbcData, htake, hdrop, hctdef]
    rw [chunks16_join _ hctmem]
    rw [cbcDec_cbcEnc E D hE hED _ i_v hiv hpbs]
    exact flatten_chunks16 padded
  have hlast : padded.getLast? = some p := by
    rw [hpaddeddef]
    rw [List.getLast?_append_of_ne_nil]
    · exact getLast?_replicate_ne p p (by omega)
    · simp
      omega
  have hslice : pySliceLast padded p = List.replicate p p := by
    rw [pySliceLast, if_neg (by omega)]
    rw [hplen, hpaddeddef]
    have : s.length + p - p = s.length := by omega
    rw [this, List.drop_left]
  have hstrip : pyStripLast padded p = s := by
    rw [pyStripLast, if_neg (by omega)]
    rw [hplen, hpaddeddef]
    have : s.length + p - p = s.length := by omega
    rw [this, List.take_left]
  rw [decrypt_with_key]
  rw [if_neg (by rw [hlen]; simp only [blockSize]; omega)]
  rw [if_neg (by rw [hlen, hctlen]; simp only [blockSize]; omega)]
  simp only [hdata, hlast]
  rw [if_pos hslice, hstrip]

/-- C8: encrypt-swap and decrypt-swap with no passphrase raise the password-required error and leave
the filesystem unchanged: no file is created, written or deleted. -/
theorem swap_requires_password (cipherOf decipherOf : String → List Nat → List Nat)
    (i_v : List Nat) (fs : SwapFS) (file file_enc : String) :
    encrypt_swap cipherOf i_v fs file file_enc Option.none =
      (Except.error PyErr.passwordRequired, fs) ∧
    decrypt_swap decipherOf fs file file_enc Option.none =
      (Except.error PyErr.passwordRequired, fs) :=
  ⟨rfl, rfl⟩

theorem cbcDec_mem_length (D : List Nat → List Nat) (hD : ∀ b, (D b).length = 16) :
    ∀ (cs : List (List Nat)) (prev : List Nat), prev.length = 16 →
      (∀ c ∈ cs, c.length = 16) → ∀ b ∈ cbcDec D prev cs, b.length = 16 := by
  intro cs
  induction cs with
  | nil => intro prev _ _ b hb; simp [cbcDec] at hb
  | cons c cs ih =>
    intro prev hprev hall b hb
    simp only [cbcDec] at hb
    rcases List.mem_cons.mp hb with h | h
    · subst h; simp [hprev, hD c]
    · exact ih c (hall c (by simp)) (fun x hx => hall x (by simp [hx])) b h

theorem chunks16_length_pos (l : List Nat) (h : l ≠ []) : chunks16 l ≠ [] := by
  rw [chunks16]
  rw [if_neg (by simp [h])]
  simp

theorem decrypt_with_key_unfold (D : List Nat → List Nat) (source : List Nat) (p : Nat)
    (hlen : 32 ≤ source.length) (halign : (source.length - blockSize) % blockSize = 0)
    (hp : (cbcData D source).getLast? = some p) :
    decrypt_with_key D source =
      (if pySliceLast (cbcData D source) p = List.replicate p p then
        Except.ok (pyStripLast (cbcData D source) p)
      else Except.error PyErr.incorrectPassword) := by
  rw [decrypt_with_key]
  rw [if_neg (by simp only [blockSize]; omega)]
  rw [if_neg (by simp only [blockSize]; simp only [blockSize] at halign; omega)]
  simp only [hp]

/-- C7 (amended): for well-formed ciphertexts, decryption raises the decryption error iff the
padding check fails, where the check also fails when the final byte is 0 because the code
compares data[-0:], the whole buffer, against the empty byte string; on success the final p
bytes are stripped. -/
theorem decrypt_padding_characterization (D : List Nat → List Nat) (source : List Nat)
    (hD : ∀ b, (D b).length = 16)
    (hlen : 32 ≤ source.length)
    (halign : (source.length - blockSize) % blockSize = 0) :
    (decrypt_with_key D source = Except.error PyErr.incorrectPassword ↔
      ¬ (1 ≤ (cbcData D source).getLastD 0 ∧
          pySliceLast (cbcData D source) ((cbcData D source).getLastD 0) =
            List.replicate ((cbcData D source).getLastD 0) ((cbcData D source).getLastD 0))) ∧
    ((1 ≤ (cbcData D source).getLastD 0 ∧
        pySliceLast (cbcData D source) ((cbcData D source).getLastD 0) =
          List.replicate ((cbcData D source).getLastD 0) ((cbcData D source).getLastD 0)) →
      decrypt_with_key D source =
        Except.ok ((cbcData D source).take
          ((cbcData D source).length - (cbcData D source).getLastD 0))) := by
  have hivlen : (source.take blockSize).length = 16 := by
    simp [blockSize]
    omega
  have hctlen : (source.drop blockSize).length % 16 = 0 := by
    simp [blockSize]
    simp [blockSize] at halign
    omega
  have hctne : source.drop blockSize ≠ [] := by
    have : (source.drop blockSize).length ≠ 0 := by
      simp [blockSize]
      omega
    intro hcon
    rw [hcon] at this
    simp at this
  have hblocks : ∀ c ∈ chunks16 (source.drop blockSize), c.length = 16 :=
    chunks16_mem_length _ hctlen
  have hdatablocks : ∀ b ∈ cbcDec D (source.take blockSize) (chunks16 (source.drop blockSize)),
      b.length = 16 :=
    cbcDec_mem_length D hD _ _ hivlen hblocks
  have hdatane : cbcData D source ≠ [] := by
    rw [cbcData]
    have h1 : chunks16 (source.drop blockSize) ≠ [] := chunks16_length_pos _ hctne
    cases hc : chunks16 (source.drop blockSize) with
    | nil => exact absurd hc h1
    | cons c cs =>
      simp only [cbcDec, List.flatten_cons]
      have : (List.zipWith Nat.xor (source.take blockSize) (D c)).length = 16 := by
        simp [hivlen, hD c]
      intro hcon
      rw [List.append_eq_nil] at hcon
      rw [hcon.1] at this
      simp at this
  obtain ⟨p, hp⟩ : ∃ p, (cbcData D source).getLast? = some p := by
    cases hq : (cbcData D source).getLast? with
    | none => rw [List.getLast?_eq_none_iff] at hq; exact absurd hq hdatane
    | some q => exact ⟨q, rfl⟩
  have hpd : (cbcData D source).getLastD 0 = p := by
    rw [List.getLastD_eq_getLast?, hp]
    rfl
  have hdec := decrypt_with_key_unfold D source p hlen halign hp
  rw [hpd, hdec]
  by_cases hchk : pySliceLast (cbcData D source) p = List.replicate p p
  · have hp1 : 1 ≤ p := by
      by_contra hc
      push_neg at hc
      interval_cases p
      rw [pySliceLast, if_pos rfl] at hchk
      simp at hchk
      exact hdatane hchk
    constructor
    · rw [if_pos hchk]
      constructor
      · intro h
        exact absurd h (by simp)
      · intro h
        exact absurd ⟨hp1, hchk⟩ h
    · intro _
      rw [if_pos hchk]
      rw [pyStripLast, if_neg (by omega)]
  · constructor
    · rw [if_neg hchk]
      constructor
      · intro _
        intro hcon
        exact hchk hcon.2
      · intro _
        rfl
    · intro hcon
      exact absurd hcon.2 hchk

theorem except_bind_ok {α β γ : Type} (x : Except γ α) (f : α → Except γ β) (b : β)
    (h : (x >>= f) = Except.ok b) : ∃ a, x = Except.ok a ∧ f a = Except.ok b := by
  cases x with
  | error e => simp [Bind.bind, Except.bind] at h
  | ok a =>
    refine ⟨a, rfl, ?_⟩
    simpa [Bind.bind, Except.bind] using h

set_option maxRecDepth 4000 in
theorem diffItems_mem (pkvs items : List (String × Val)) (res : List (String × Val))
    (h : diffItems pkvs items = Except.ok res) :
    ∀ kv ∈ res, kv.fst ∈ items.map Prod.fst ∧
      (isScalar kv.snd = true →
        dictGetD pkvs kv.fst Val.none = Val.none ∨ kv.snd ≠ dictGetD pkvs kv.fst Val.none) := by
  induction pkvs, items using diffItems.induct generalizing res with
  | case1 pkvs =>
    rw [diffItems.eq_def] at h
    cases h
    intro kv hkv
    simp at hkv
  | case2 pkvs key value rest hpv ih =>
    rw [diffItems.eq_def] at h
    simp only [if_pos hpv] at h
    obtain ⟨r, hr, hres⟩ := except_bind_ok _ _ _ h
    cases hres
    intro kv hkv
    rcases List.mem_cons.mp hkv with hkv | hkv
    · subst hkv
      exact ⟨by simp, fun _ => Or.inl hpv⟩
    · obtain ⟨h1, h2⟩ := ih r hr kv hkv
      exact ⟨by simp [h1], h2⟩
  | case3 pkvs key rest hpv cs hcs ih =>
    rw [diffItems.eq_def] at h
    simp only [if_neg hpv, if_pos hcs] at h
    intro kv hkv
    obtain ⟨h1, h2⟩ := ih res h kv hkv
    exact ⟨by simp [h1], h2⟩
  | case4 pkvs key rest hpv cs hcs ps hps ihs ih =>
    rw [diffItems.eq_def] at h
    simp only [if_neg hpv, hcs, hps] at h
    obtain ⟨d, hd, h⟩ := except_bind_ok _ _ _ h
    obtain ⟨r, hr, hres⟩ := except_bind_ok _ _ _ h
    cases hres
    intro kv hkv
    by_cases hde : d.isEmpty
    · rw [if_pos hde] at hkv
      obtain ⟨h1, h2⟩ := ih r hr kv hkv
      exact ⟨by simp [h1], h2⟩
    · rw [if_neg hde] at hkv
      rcases List.mem_cons.mp hkv with hkv | hkv
      · subst hkv
        exact ⟨by simp, by intro hs; simp [isScalar] at hs⟩
      · obtain ⟨h1, h2⟩ := ih r hr kv hkv
        exact ⟨by simp [h1], h2⟩
  | case5 pkvs key rest hpv cs hcs hnd =>
    rw [diffItems.eq_def] at h
    simp only [if_neg hpv, hcs] at h
    simp at h
  | case6 pkvs key rest hpv xs ih =>
    rw [diffItems.eq_def] at h
    simp only [if_neg hpv] at h
    obtain ⟨fl, hfl, h⟩ := except_bind_ok _ _ _ h
    obtain ⟨r, hr, hres⟩ := except_bind_ok _ _ _ h
    cases hres
    intro kv hkv
    by_cases hfe : fl.isEmpty
    · rw [if_pos hfe] at hkv
      obtain ⟨h1, h2⟩ := ih r hr kv hkv
      exact ⟨by simp [h1], h2⟩
    · rw [if_neg hfe] at hkv
      rcases List.mem_cons.mp hkv with hkv | hkv
      · subst hkv
        exact ⟨by simp, by intro hs; simp [isScalar] at hs⟩
      · obtain ⟨h1, h2⟩ := ih r hr kv hkv
        exact ⟨by simp [h1], h2⟩
  | case7 pkvs key value rest hpv hnd hnl ih =>
    rw [diffItems.eq_def] at h
    simp only [if_neg hpv] at h
    cases value with
    | dict cs => exact absurd rfl (hnd cs)
    | list xs => exact absurd rfl (hnl xs)
    | none =>
      obtain ⟨r, hr, hres⟩ := except_bind_ok _ _ _ h
      cases hres
      intro kv hkv
      by_cases hc : Val.none = dictGetD pkvs key Val.none
      · rw [if_pos hc] at hkv
        obtain ⟨h1, h2⟩ := ih r hr kv hkv
        exact ⟨by simp [h1], h2⟩
      · rw [if_neg hc] at hkv
        rcases List.mem_cons.mp hkv with hkv | hkv
        · subst hkv
          exact ⟨by simp, fun _ => Or.inr hc⟩
        · obtain ⟨h1, h2⟩ := ih r hr kv hkv
          exact ⟨by simp [h1], h2⟩
    | int n =>
      obtain ⟨r, hr, hres⟩ := except_bind_ok _ _ _ h
      cases hres
      intro kv hkv
      by_cases hc : Val.int n = dictGetD pkvs key Val.none
      · rw [if_pos hc] at hkv
        obtain ⟨h1, h2⟩ := ih r hr kv hkv
        exact ⟨by simp [h1], h2⟩
      · rw [if_neg hc] at hkv
        rcases List.mem_cons.mp hkv with hkv | hkv
        · subst hkv
          exact ⟨by simp, fun _ => Or.inr hc⟩
        · obtain ⟨h1, h2⟩ := ih r hr kv hkv
          exact ⟨by simp [h1], h2⟩
    | str s =>
      obtain ⟨r, hr, hres⟩ := except_bind_ok _ _ _ h
      cases hres
      intro kv hkv
      by_cases hc : Val.str s = dictGetD pkvs key Val.none
      · rw [if_pos hc] at hkv
        obtain ⟨h1, h2⟩ := ih r hr kv hkv
        exact ⟨by simp [h1], h2⟩
      · rw [if_neg hc] at hkv
        rcases List.mem_cons.mp hkv with hkv | hkv
        · subst hkv
          exact ⟨by simp, fun _ => Or.inr hc⟩
        · obtain ⟨h1, h2⟩ := ih r hr kv hkv
          exact ⟨by simp [h1], h2⟩

theorem encrypt_roundtrip_witness :
    decrypt_with_key id
      (encrypt_with_key (fun b => b.take 16 ++ List.replicate (16 - b.length) 0)
        (List.replicate 16 0) [1, 2, 3]) = Except.ok [1, 2, 3] := by
  apply encrypt_roundtrip
  · intro b
    simp
    omega
  · intro b hb
    simp [hb, List.take_of_length_le (le_of_eq hb)]
  · simp

theorem cbcData_const (c : Nat) :
    cbcData (fun _ => List.replicate 16 c) (List.replicate 32 0) = List.replicate 16 c := by
  rw [cbcData]
  have h1 : (List.replicate 32 (0 : Nat)).take blockSize = List.replicate 16 0 := by
    simp [blockSize, List.take_replicate]
  have h2 : (List.replicate 32 (0 : Nat)).drop blockSize = List.replicate 16 0 := by
    simp [blockSize, List.drop_replicate]
  rw [h1, h2]
  have h3 : chunks16 (List.replicate 16 (0 : Nat)) = [List.replicate 16 0] := by
    rw [chunks16]
    rw [if_neg (by simp)]
    rw [chunks16]
    simp [List.take_replicate, List.drop_replicate]
  rw [h3]
  simp only [cbcDec, List.flatten]
  have hx : Nat.xor 0 c = c := Nat.zero_xor c
  have : List.zipWith Nat.xor (List.replicate 16 0) (List.replicate 16 c) =
      List.replicate 16 c := by
    rw [List.zipWith_replicate]
    simp [hx]
  simp [this, hx]

theorem decrypt_error_iff_check_refuted :
    decrypt_with_key (fun _ => List.replicate 16 0) (List.replicate 32 0) =
      Except.error PyErr.incorrectPassword ∧
    (cbcData (fun _ => List.replicate 16 0) (List.replicate 32 0)).drop
        ((cbcData (fun _ => List.replicate 16 0) (List.replicate 32 0)).length -
          (cbcData (fun _ => List.replicate 16 0) (List.replicate 32 0)).getLastD 0) =
      List.replicate ((cbcData (fun _ => List.replicate 16 0) (List.replicate 32 0)).getLastD 0)
        ((cbcData (fun _ => List.replicate 16 0) (List.replicate 32 0)).getLastD 0) := by
  have hdata := cbcData_const 0
  have hlast : (cbcData (fun _ => List.replicate 16 0) (List.replicate 32 0)).getLast? =
      some 0 := by
    rw [hdata]
    exact getLast?_replicate_ne 16 0 (by omega)
  constructor
  · rw [decrypt_with_key_unfold (fun _ => List.replicate 16 0) (List.replicate 32 0) 0
      (by simp) (by simp [blockSize]) hlast]
    rw [if_neg]
    rw [hdata, pySliceLast, if_pos rfl]
    simp
  · have hld : (cbcData (fun _ => List.replicate 16 0) (List.replicate 32 0)).getLastD 0 = 0 := by
      rw [List.getLastD_eq_getLast?, hlast]
      rfl
    rw [hld, hdata]
    simp

theorem decrypt_padding_characterization_witness :
    decrypt_with_key (fun _ => List.replicate 16 1) (List.replicate 32 0) =
      Except.ok ((cbcData (fun _ => List.replicate 16 1) (List.replicate 32 0)).take
        ((cbcData (fun _ => List.replicate 16 1) (List.replicate 32 0)).length -
          (cbcData (fun _ => List.replicate 16 1) (List.replicate 32 0)).getLastD 0)) := by
  have hdata := cbcData_const 1
  have hlast : (cbcData (fun _ => List.replicate 16 1) (List.replicate 32 0)).getLast? =
      some 1 := by
    rw [hdata]
    exact getLast?_replicate_ne 16 1 (by omega)
  have hld : (cbcData (fun _ => List.replicate 16 1) (List.replicate 32 0)).getLastD 0 = 1 := by
    rw [List.getLastD_eq_getLast?, hlast]
    rfl
  apply (decrypt_padding_characterization (fun _ => List.replicate 16 1) (List.replicate 32 0)
    (fun b => by simp) (by simp) (by simp [blockSize])).2
  refine ⟨by rw [hld], ?_⟩
  rw [hld, hdata, pySliceLast, if_neg (by omega)]
  simp [List.drop_replicate]

theorem diff_scalar_only_if_changed_refuted :
    ¬ (∀ res, diff (Val.dict [("a", Val.none)]) (Val.dict [("a", Val.none)]) =
          Except.ok (Val.dict res) →
        ∀ kv ∈ res, isScalar kv.snd = true →
          some kv.snd ≠ List.lookup kv.fst [("a", Val.none)]) := by
  intro hcl
  have hres : diff (Val.dict [("a", Val.none)]) (Val.dict [("a", Val.none)]) =
      Except.ok (Val.dict [("a", Val.none)]) := by
    simp [diff, diffItems, dictGetD, Except.map, Bind.bind, Except.bind, List.lookup]
  exact (hcl [("a", Val.none)] hres ("a", Val.none) (by simp) rfl) rfl

theorem subVal_refl : ∀ v : Val, subVal v v
  | Val.none => by simp [subVal]
  | Val.int n => by simp [subVal]
  | Val.str s => by simp [subVal]
  | Val.list xs => by
    rw [subVal]
    exact fun x hx => hx
  | Val.dict d => by
    rw [subVal]
    intro kv hkv
    refine ⟨kv.snd, ?_, subVal_refl kv.snd⟩
    obtain ⟨k1, v1⟩ := kv
    exact hkv
termination_by v => sizeOf v
decreasing_by
  simp_wf
  have h1 := List.sizeOf_lt_of_mem hkv
  obtain ⟨k1, v1⟩ := kv
  simp at h1 ⊢
  omega

theorem pyFilterNotIn_sub (container : Val) : ∀ (xs fl : List Val),
    pyFilterNotIn container xs = Except.ok fl → ∀ x ∈ fl, x ∈ xs := by
  intro xs
  induction xs with
  | nil =>
    intro fl h x hx
    rw [pyFilterNotIn] at h
    cases h
    simp at hx
  | cons y ys ih =>
    intro fl h x hx
    rw [pyFilterNotIn] at h
    obtain ⟨b, hb, h⟩ := except_bind_ok _ _ _ h
    obtain ⟨r, hr, hres⟩ := except_bind_ok _ _ _ h
    cases hres
    cases b with
    | true =>
      rw [if_pos rfl] at hx
      exact List.mem_cons.mpr (Or.inr (ih r hr x hx))
    | false =>
      rw [if_neg (by simp)] at hx
      rcases List.mem_cons.mp hx with hx1 | hx2
      · exact List.mem_cons.mpr (Or.inl hx1)
      · exact List.mem_cons.mpr (Or.inr (ih r hr x hx2))

theorem diffItems_sub (pkvs items : List (String × Val)) (res : List (String × Val))
    (h : diffItems pkvs items = Except.ok res) :
    ∀ kv ∈ res, ∃ cv, (kv.fst, cv) ∈ items ∧ subVal kv.snd cv := by
  induction pkvs, items using diffItems.induct generalizing res with
  | case1 pkvs =>
    rw [diffItems.eq_def] at h
    cases h
    intro kv hkv
    simp at hkv
  | case2 pkvs key value rest hpv ih =>
    rw [diffItems.eq_def] at h
    simp only [if_pos hpv] at h
    obtain ⟨r, hr, hres⟩ := except_bind_ok _ _ _ h
    cases hres
    intro kv hkv
    rcases List.mem_cons.mp hkv with hkv | hkv
    · subst hkv
      exact ⟨value, List.mem_cons_self _ _, subVal_refl value⟩
    · obtain ⟨cv, h1, h2⟩ := ih r hr kv hkv
      exact ⟨cv, List.mem_cons.mpr (Or.inr h1), h2⟩
  | case3 pkvs key rest hpv cs hcs ih =>
    rw [diffItems.eq_def] at h
    simp only [if_neg hpv, if_pos hcs] at h
    intro kv hkv
    obtain ⟨cv, h1, h2⟩ := ih res h kv hkv
    exact ⟨cv, List.mem_cons.mpr (Or.inr h1), h2⟩
  | case4 pkvs key rest hpv cs hcs ps hps ihs ih =>
    rw [diffItems.eq_def] at h
    simp only [if_neg hpv, hcs, hps] at h
    obtain ⟨d, hd, h⟩ := except_bind_ok _ _ _ h
    obtain ⟨r, hr, hres⟩ := except_bind_ok _ _ _ h
    cases hres
    intro kv hkv
    by_cases hde : d.isEmpty
    · rw [if_pos hde] at hkv
      obtain ⟨cv, h1, h2⟩ := ih r hr kv hkv
      exact ⟨cv, List.mem_cons.mpr (Or.inr h1), h2⟩
    · rw [if_neg hde] at hkv
      rcases List.mem_cons.mp hkv with hkv | hkv
      · subst hkv
        refine ⟨Val.dict cs, List.mem_cons_self _ _, ?_⟩
        rw [subVal]
        exact ihs d hd
      · obtain ⟨cv, h1, h2⟩ := ih r hr kv hkv
        exact ⟨cv, List.mem_cons.mpr (Or.inr h1), h2⟩
  | case5 pkvs key rest hpv cs hcs hnd =>
    rw [diffItems.eq_def] at h
    simp only [if_neg hpv, hcs] at h
    simp at h
  | case6 pkvs key rest hpv xs ih =>
    rw [diffItems.eq_def] at h
    simp only [if_neg hpv] at h
    obtain ⟨fl, hfl, h⟩ := except_bind_ok _ _ _ h
    obtain ⟨r, hr, hres⟩ := except_bind_ok _ _ _ h
    cases hres
    intro kv hkv
    by_cases hfe : fl.isEmpty
    · rw [if_pos hfe] at hkv
      obtain ⟨cv, h1, h2⟩ := ih r hr kv hkv
      exact ⟨cv, List.mem_cons.mpr (Or.inr h1), h2⟩
    · rw [if_neg hfe] at hkv
      rcases List.mem_cons.mp hkv with hkv | hkv
      · subst hkv
        refine ⟨Val.list xs, List.mem_cons_self _ _, ?_⟩
        rw [subVal]
        exact pyFilterNotIn_sub _ xs fl hfl
      · obtain ⟨cv, h1, h2⟩ := ih r hr kv hkv
        exact ⟨cv, List.mem_cons.mpr (Or.inr h1), h2⟩
  | case7 pkvs key value rest hpv hnd hnl ih =>
    rw [diffItems.eq_def] at h
    simp only [if_neg hpv] at h
    cases value with
    | dict cs => exact absurd rfl (hnd cs)
    | list xs => exact absurd rfl (hnl xs)
    | none =>
      obtain ⟨r, hr, hres⟩ := except_bind_ok _ _ _ h
      cases hres
      intro kv hkv
      by_cases hc : Val.none = dictGetD pkvs key Val.none
      · rw [if_pos hc] at hkv
        obtain ⟨cv, h1, h2⟩ := ih r hr kv hkv
        exact ⟨cv, List.mem_cons.mpr (Or.inr h1), h2⟩
      · rw [if_neg hc] at hkv
        rcases List.mem_cons.mp hkv with hkv | hkv
        · subst hkv
          exact ⟨Val.none, List.mem_cons_self _ _, subVal_refl Val.none⟩
        · obtain ⟨cv, h1, h2⟩ := ih r hr kv hkv
          exact ⟨cv, List.mem_cons.mpr (Or.inr h1), h2⟩
    | int n =>
      obtain ⟨r, hr, hres⟩ := except_bind_ok _ _ _ h
      cases hres
      intro kv hkv
      by_cases hc : Val.int n = dictGetD pkvs key Val.none
      · rw [if_pos hc] at hkv
        obtain ⟨cv, h1, h2⟩ := ih r hr kv hkv
        exact ⟨cv, List.mem_cons.mpr (Or.inr h1), h2⟩
      · rw [if_neg hc] at hkv
        rcases List.mem_cons.mp hkv with hkv | hkv
        · subst hkv
          exact ⟨Val.int n, List.mem_cons_self _ _, subVal_refl (Val.int n)⟩
        · obtain ⟨cv, h1, h2⟩ := ih r hr kv hkv
          exact ⟨cv, List.mem_cons.mpr (Or.inr h1), h2⟩
    | str s =>
      obtain ⟨r, hr, hres⟩ := except_bind_ok _ _ _ h
      cases hres
      intro kv hkv
      by_cases hc : Val.str s = dictGetD pkvs key Val.none
      · rw [if_pos hc] at hkv
        obtain ⟨cv, h1, h2⟩ := ih r hr kv hkv
        exact ⟨cv, List.mem_cons.mpr (Or.inr h1), h2⟩
      · rw [if_neg hc] at hkv
        rcases List.mem_cons.mp hkv with hkv | hkv
        · subst hkv
          exact ⟨Val.str s, List.mem_cons_self _ _, subVal_refl (Val.str s)⟩
        · obtain ⟨cv, h1, h2⟩ := ih r hr kv hkv
          exact ⟨cv, List.mem_cons.mpr (Or.inr h1), h2⟩

/-- C4 (amended): diff never reports removed keys or removed sequence elements: every entry of
the result corresponds to an entry of current whose value contains the reported value, where a
reported sequence draws all its elements from current's sequence at that key and a reported
sub-mapping satisfies the same containment recursively; a key with a scalar value appears in the
result only if that value differs from the value previous holds at the same key or previous
holds none there; the two concrete examples of the claim hold. -/
theorem diff_additive_amended (pkvs ckvs res : List (String × Val))
    (h : diff (Val.dict pkvs) (Val.dict ckvs) = Except.ok (Val.dict res)) :
    (∀ kv ∈ res, kv.fst ∈ ckvs.map Prod.fst) ∧
    (∀ kv ∈ res, ∃ cv, (kv.fst, cv) ∈ ckvs ∧ subVal kv.snd cv) ∧
    (∀ kv ∈ res, isScalar kv.snd = true →
      dictGetD pkvs kv.fst Val.none = Val.none ∨ kv.snd ≠ dictGetD pkvs kv.fst Val.none) ∧
    diff (Val.dict [("a", Val.int 1)]) (Val.dict [("a", Val.int 1), ("b", Val.int 2)]) =
      Except.ok (Val.dict [("b", Val.int 2)]) ∧
    diff (Val.dict [("a", Val.int 1), ("b", Val.int 2)]) (Val.dict [("a", Val.int 1)]) =
      Except.ok (Val.dict []) := by
  have hmem : ∀ kv ∈ res, (kv.fst ∈ ckvs.map Prod.fst ∧
      (isScalar kv.snd = true →
        dictGetD pkvs kv.fst Val.none = Val.none ∨ kv.snd ≠ dictGetD pkvs kv.fst Val.none)) ∧
      (∃ cv, (kv.fst, cv) ∈ ckvs ∧ subVal kv.snd cv) := by
    cases ckvs with
    | nil =>
      rw [diff] at h
      cases h
      intro kv hkv
      simp at hkv
    | cons c cs =>
      rw [diff] at h
      cases hq : diffItems pkvs (c :: cs) with
      | error e => rw [hq] at h; simp [Except.map] at h
      | ok r =>
        rw [hq] at h
        simp [Except.map] at h
        subst h
        intro kv hkv
        exact ⟨diffItems_mem pkvs (c :: cs) r hq kv hkv, diffItems_sub pkvs (c :: cs) r hq kv hkv⟩
  refine ⟨fun kv hkv => (hmem kv hkv).1.1, fun kv hkv => (hmem kv hkv).2,
    fun kv hkv => (hmem kv hkv).1.2, ?_, ?_⟩
  · simp [diff, diffItems, dictGetD, Except.map, Bind.bind, Except.bind, List.lookup]
  · simp [diff, diffItems, dictGetD, Except.map, Bind.bind, Except.bind, List.lookup]

theorem diff_additive_amended_witness :
    dictGetD [("a", Val.int 1)] "b" Val.none = Val.none ∨
      Val.int 2 ≠ dictGetD [("a", Val.int 1)] "b" Val.none := by
  have hd : diff (Val.dict [("a", Val.int 1)]) (Val.dict [("a", Val.int 1), ("b", Val.int 2)]) =
      Except.ok (Val.dict [("b", Val.int 2)]) := by
    simp [diff, diffItems, dictGetD, Except.map, Bind.bind, Except.bind, List.lookup]
  exact (diff_additive_amended [("a", Val.int 1)] [("a", Val.int 1), ("b", Val.int 2)]
    [("b", Val.int 2)] hd).2.2.1 ("b", Val.int 2) (by simp) rfl

/-- C2 (amended): reconciling the definition db -> (host: none, port: none) against defaults () and
data db -> (host: x), with a stub input provider answering 42, yields the mapping nested by the
definition structure, db -> (host: x, port: 42), not a flat leaf-name mapping. -/
theorem reconcile_nested_result :
    ensure_definition_matches (fun _ => "42") 10
      (Val.dict [("db", Val.dict [("host", Val.none), ("port", Val.none)])])
      (Val.dict []) (Val.dict [("db", Val.dict [("host", Val.str "x")])]) "" =
      Except.ok [("db", Val.dict [("host", Val.str "x"), ("port", Val.str "42")])] := rfl

theorem reconcile_flat_mapping_refuted :
    ¬ (ensure_definition_matches (fun _ => "42") 10
        (Val.dict [("db", Val.dict [("host", Val.none), ("port", Val.none)])])
        (Val.dict []) (Val.dict [("db", Val.dict [("host", Val.str "x")])]) "" =
        Except.ok [("host", Val.str "x"), ("port", Val.str "42")]) := by
  intro h
  rw [reconcile_nested_result] at h
  simp at h

theorem dedup_list_counts {α : Type} [DecidableEq α] (order : List α) :
    order.Nodup → ∀ (l : List α), (∀ v ∈ order, v ∈ l) → ∀ v,
      ((dedup_list order l).1.count v = if v ∈ order ∧ 2 ≤ l.count v then 1 else 0) ∧
      ((dedup_list order l).2.count v =
        l.count v - (if v ∈ order ∧ 2 ≤ l.count v then 1 else 0)) := by
  induction order with
  | nil =>
    intro _ l _ v
    simp [dedup_list]
  | cons item rest ih =>
    intro hnd l hmem v
    have hnotin : item ∉ rest := by simp at hnd; exact hnd.1
    have hndr : rest.Nodup := by simp at hnd; exact hnd.2
    have hcnt1 : 0 < l.count item := List.count_pos_iff.mpr (hmem item (by simp))
    rw [dedup_list]
    by_cases hc : l.count item ≠ 1
    · have h2 : 2 ≤ l.count item := by omega
      rw [if_pos hc]
      have hmem2 : ∀ w ∈ rest, w ∈ l.erase item := by
        intro w hw
        have hwl : w ∈ l := hmem w (by simp [hw])
        have hwne : w ≠ item := fun he => hnotin (he ▸ hw)
        exact (List.mem_erase_of_ne hwne).mpr hwl
      have iv := ih hndr (l.erase item) hmem2 v
      by_cases hv : v = item
      · subst hv
        have hce : (l.erase v).count v = l.count v - 1 := List.count_erase_self v l
        have hy : (dedup_list rest (l.erase v)).1.count v = 0 := by
          rw [iv.1, if_neg (fun hcon => hnotin hcon.1)]
        have hz : (dedup_list rest (l.erase v)).2.count v = l.count v - 1 := by
          rw [iv.2, if_neg (fun hcon => hnotin hcon.1), hce]
          omega
        constructor
        · rw [List.count_cons_self, hy, if_pos ⟨by simp, h2⟩]
        · rw [hz, if_pos ⟨by simp, h2⟩]
      · have hce : (l.erase item).count v = l.count v := List.count_erase_of_ne hv l
        constructor
        · rw [List.count_cons_of_ne hv, iv.1, hce]
          simp [List.mem_cons, hv]
        · rw [iv.2, hce]
          simp [List.mem_cons, hv]
    · rw [if_neg hc]
      have hc1 : l.count item = 1 := by omega
      have iv := ih hndr l (fun w hw => hmem w (by simp [hw])) v
      by_cases hv : v = item
      · subst hv
        constructor
        · rw [iv.1, if_neg (fun hcon => hnotin hcon.1), if_neg]
          rintro ⟨-, hx⟩
          omega
        · rw [iv.2, if_neg (fun hcon => hnotin hcon.1), if_neg]
          rintro ⟨-, hx⟩
          omega
      · constructor
        · rw [iv.1]
          simp [List.mem_cons, hv]
        · rw [iv.2]
          simp [List.mem_cons, hv]

/-- C10: for every duplicate-free enumeration order of the values of a list, exhausting dedup_list
yields each value occurring at least twice exactly once and removes exactly one occurrence of
it, so a value occurring three or more times still occurs at least twice afterwards. -/
theorem dedup_list_spec {α : Type} [DecidableEq α] (l order : List α)
    (hnd : order.Nodup) (hiff : ∀ v, v ∈ order ↔ v ∈ l) (v : α) :
    ((dedup_list order l).1.count v = if 2 ≤ l.count v then 1 else 0) ∧
    ((dedup_list order l).2.count v = l.count v - (if 2 ≤ l.count v then 1 else 0)) ∧
    (3 ≤ l.count v → 2 ≤ (dedup_list order l).2.count v) := by
  have h := dedup_list_counts order hnd l (fun w hw => (hiff w).mp hw) v
  have hcond : (v ∈ order ∧ 2 ≤ l.count v) ↔ 2 ≤ l.count v := by
    constructor
    · exact And.right
    · intro h2
      refine ⟨(hiff v).mpr ?_, h2⟩
      exact List.count_pos_iff.mp (by omega)
  simp only [hcond] at h
  refine ⟨h.1, h.2, ?_⟩
  intro h3
  rw [h.2, if_pos (by omega)]
  omega

theorem dedup_list_spec_witness :
    ((dedup_list [1, 2] [1, 1, 1, 2]).1.count 1 = if 2 ≤ ([1, 1, 1, 2] : List Nat).count 1 then 1 else 0) ∧
    ((dedup_list [1, 2] [1, 1, 1, 2]).2.count 1 =
      ([1, 1, 1, 2] : List Nat).count 1 - (if 2 ≤ ([1, 1, 1, 2] : List Nat).count 1 then 1 else 0)) ∧
    (3 ≤ ([1, 1, 1, 2] : List Nat).count 1 → 2 ≤ (dedup_list [1, 2] [1, 1, 1, 2]).2.count 1) :=
  dedup_list_spec [1, 1, 1, 2] [1, 2] (by decide)
    (fun v => by constructor <;> (intro h; simp at h ⊢; tauto)) 1

/-- C6: merging a mapping with list value [1,2] at a key into a destination holding [2,3] at that
key with overwrite yields exactly [2,3,1]: destination elements first in original order, then
the new unique source elements in source order. -/
theorem merge_list_dedup_order :
    (merge 20 (PVal.ref 0) (PVal.ref 2) true mergeS6).1 = MRes.ok (PVal.ref 2) ∧
    readout 10 (merge 20 (PVal.ref 0) (PVal.ref 2) true mergeS6).2 (PVal.ref 2) =
      some (Val.dict [("k", Val.list [Val.int 2, Val.int 3, Val.int 1])]) :=
  ⟨rfl, rfl⟩

/-- C9: merging (a:1) into the empty dict and then (a:2) into the result yields (a:2) with
overwrite=true and (a:1) with overwrite=false: a scalar source value replaces the destination
value exactly when overwrite is set or the key is absent. -/
theorem merge_scalar_overwrite_semantics :
    readout 10 (merge 20 (PVal.ref 2) (PVal.ref 0) true
        (merge 20 (PVal.ref 1) (PVal.ref 0) true mergeS9).2).2 (PVal.ref 0) =
      some (Val.dict [("a", Val.int 2)]) ∧
    readout 10 (merge 20 (PVal.ref 2) (PVal.ref 0) false
        (merge 20 (PVal.ref 1) (PVal.ref 0) false mergeS9).2).2 (PVal.ref 0) =
      some (Val.dict [("a", Val.int 1)]) :=
  ⟨rfl, rfl⟩

theorem merge_mutates_aliased_source :
    readout 10 mergeS5 (PVal.ref 0) =
      some (Val.dict [("a", Val.list [Val.int 1, Val.int 1])]) ∧
    readout 10 (merge 20 (PVal.ref 0) (PVal.ref 0) true mergeS5).2 (PVal.ref 0) =
      some (Val.dict [("a", Val.list [Val.int 1])]) ∧
    readout 10 (merge 20 (PVal.ref 0) (PVal.ref 0) true mergeS5).2 (PVal.ref 0) ≠
      readout 10 mergeS5 (PVal.ref 0) := by
  refine ⟨rfl, rfl, ?_⟩
  intro h
  rw [show readout 10 mergeS5 (PVal.ref 0) =
    some (Val.dict [("a", Val.list [Val.int 1, Val.int 1])]) from rfl] at h
  rw [show readout 10 (merge 20 (PVal.ref 0) (PVal.ref 0) true mergeS5).2 (PVal.ref 0) =
    some (Val.dict [("a", Val.list [Val.int 1])]) from rfl] at h
  simp at h

theorem lookupPairs_mem (l : List (Nat × Obj)) (a : Nat) (o : Obj)
    (h : lookupPairs l a = some o) : (a, o) ∈ l := by
  induction l with
  | nil => simp [lookupPairs] at h
  | cons e rest ih =>
    rw [lookupPairs] at h
    by_cases he : e.fst = a
    · rw [if_pos he] at h
      cases h
      rw [← he]
      exact List.mem_cons_self e rest
    · rw [if_neg he] at h
      exact List.mem_cons_of_mem e (ih h)

theorem get_isSome_lt (S : Store) (a : Nat) (h : (S.get a).isSome) (hwf : StoreWF S) :
    a < S.next := by
  rw [Store.get] at h
  cases hq : lookupPairs S.objs a with
  | none => rw [hq] at h; simp at h
  | some o => exact hwf.2.1 (a, o) (lookupPairs_mem _ _ _ hq)

theorem lookupPairs_setmap_found (l : List (Nat × Obj)) (a : Nat) (o : Obj)
    (h : (lookupPairs l a).isSome) :
    lookupPairs (l.map (fun e => if e.fst = a then (a, o) else e)) a = some o := by
  induction l with
  | nil => simp [lookupPairs] at h
  | cons e rest ih =>
    by_cases he : e.fst = a
    · simp only [List.map_cons, if_pos he, lookupPairs]
      simp
    · simp only [List.map_cons, if_neg he, lookupPairs, if_neg he]
      rw [lookupPairs, if_neg he] at h
      exact ih h

theorem lookupPairs_setmap_ne (l : List (Nat × Obj)) (a b : Nat) (o : Obj) (h : b ≠ a) :
    lookupPairs (l.map (fun e => if e.fst = a then (a, o) else e)) b = lookupPairs l b := by
  induction l with
  | nil => simp [lookupPairs]
  | cons e rest ih =>
    by_cases he : e.fst = a
    · simp only [List.map_cons, if_pos he, lookupPairs]
      rw [if_neg (fun hc => h hc.symm), if_neg (by rw [he]; exact fun hc => h hc.symm)]
      exact ih
    · simp only [List.map_cons, if_neg he, lookupPairs]
      by_cases hbe : e.fst = b
      · rw [if_pos hbe, if_pos hbe]
      · rw [if_neg hbe, if_neg hbe]
        exact ih

theorem get_set_same (S : Store) (a : Nat) (o : Obj) (h : (S.get a).isSome) :
    (S.set a o).get a = some o := by
  rw [Store.get] at h
  rw [Store.set, Store.get]
  exact lookupPairs_setmap_found S.objs a o h

theorem get_set_ne (S : Store) (a b : Nat) (o : Obj) (h : b ≠ a) :
    (S.set a o).get b = S.get b := by
  rw [Store.set, Store.get, Store.get]
  exact lookupPairs_setmap_ne S.objs a b o h

theorem lookupPairs_append_lt (l l2 : List (Nat × Obj)) (a : Nat) :
    lookupPairs (l ++ l2) a =
      (match lookupPairs l a with
       | some o => some o
       | Option.none => lookupPairs l2 a) := by
  induction l with
  | nil => simp [lookupPairs]
  | cons e rest ih =>
    simp only [List.cons_append, lookupPairs]
    by_cases he : e.fst = a
    · rw [if_pos he, if_pos he]
    · rw [if_neg he, if_neg he]
      exact ih

theorem get_alloc_lt (S : Store) (o : Obj) (a : Nat) (h : a < S.next) :
    (S.alloc o).get a = S.get a := by
  rw [Store.alloc, Store.get, Store.get]
  simp only []
  rw [lookupPairs_append_lt]
  cases hq : lookupPairs S.objs a with
  | some w => simp
  | none =>
    simp only []
    rw [lookupPairs, if_neg (by simp; omega)]
    rfl

theorem lookupPairs_none_of_bound (l : List (Nat × Obj)) (n : Nat)
    (hb : ∀ e ∈ l, e.fst < n) : lookupPairs l n = Option.none := by
  induction l with
  | nil => rfl
  | cons e rest ih =>
    rw [lookupPairs, if_neg (by have := hb e (by simp); omega)]
    exact ih (fun x hx => hb x (by simp [hx]))

theorem get_alloc_self (S : Store) (o : Obj) (hwf : StoreWF S) :
    (S.alloc o).get S.next = some o := by
  rw [Store.alloc, Store.get]
  simp only []
  rw [lookupPairs_append_lt, lookupPairs_none_of_bound S.objs S.next hwf.2.1]
  simp [lookupPairs]

theorem lookupPairs_setmap_isSome (l : List (Nat × Obj)) (a b : Nat) (o : Obj) :
    (lookupPairs (l.map (fun e => if e.fst = a then (a, o) else e)) b).isSome =
      (lookupPairs l b).isSome := by
  induction l with
  | nil => simp [lookupPairs]
  | cons e rest ih =>
    by_cases he : e.fst = a
    · simp only [List.map_cons, if_pos he, lookupPairs]
      by_cases hab : a = b
      · rw [if_pos hab, if_pos (he.trans hab)]
        simp
      · rw [if_neg hab, if_neg (by rw [he]; exact hab)]
        exact ih
    · simp only [List.map_cons, if_neg he, lookupPairs]
      by_cases hbe : e.fst = b
      · rw [if_pos hbe, if_pos hbe]
      · rw [if_neg hbe, if_neg hbe]
        exact ih

theorem get_set_isSome (S : Store) (a b : Nat) (o : Obj) :
    ((S.set a o).get b).isSome = (S.get b).isSome := by
  rw [Store.set, Store.get, Store.get]
  exact lookupPairs_setmap_isSome S.objs a b o

theorem lookup_mapReplace_ne (kvs : List (String × PVal)) (k k2 : String) (v : PVal)
    (h : k2 ≠ k) :
    List.lookup k2 (kvs.map (fun e => if e.fst = k then (k, v) else e)) =
      List.lookup k2 kvs := by
  induction kvs with
  | nil => simp
  | cons e rest ih =>
    obtain ⟨k1, v1⟩ := e
    by_cases he : k1 = k
    · simp only [List.map_cons]
      rw [if_pos (by simpa using he)]
      rw [List.lookup, List.lookup]
      rw [show (k2 == k) = false from by simp [h]]
      rw [show (k2 == k1) = false from by simp [he ▸ h]]
      exact ih
    · simp only [List.map_cons]
      rw [if_neg (by simpa using he)]
      rw [List.lookup, List.lookup]
      cases hbe : (k2 == k1) with
      | true => rfl
      | false => exact ih

theorem lookup_append_none (kvs tail : List (String × PVal)) (k2 : String) :
    List.lookup k2 (kvs ++ tail) =
      (match List.lookup k2 kvs with
       | some w => some w
       | Option.none => List.lookup k2 tail) := by
  induction kvs with
  | nil => simp
  | cons e rest ih =>
    obtain ⟨k1, v1⟩ := e
    simp only [List.cons_append]
    rw [List.lookup, List.lookup]
    cases hbe : (k2 == k1) with
    | true => rfl
    | false => exact ih

theorem lookup_dictSet_ne (kvs : List (String × PVal)) (k k2 : String) (v : PVal)
    (h : k2 ≠ k) : List.lookup k2 (dictSet kvs k v) = List.lookup k2 kvs := by
  rw [dictSet]
  by_cases hany : kvs.any (fun e => e.fst = k)
  · rw [if_pos hany]
    exact lookup_mapReplace_ne kvs k k2 v h
  · rw [if_neg hany]
    rw [lookup_append_none]
    cases hq : List.lookup k2 kvs with
    | some w => rfl
    | none =>
      simp only [List.lookup]
      rw [show (k2 == k) = false from by simp [h]]

theorem mapfst_mapReplace (kvs : List (String × PVal)) (k : String) (v : PVal) :
    (kvs.map (fun e => if e.fst = k then (k, v) else e)).map Prod.fst =
      kvs.map Prod.fst := by
  induction kvs with
  | nil => simp
  | cons e rest ih =>
    obtain ⟨k1, v1⟩ := e
    by_cases he : k1 = k
    · simp only [List.map_cons]
      rw [if_pos (by simpa using he)]
      simp only [List.map_cons, ih]
      simp [he]
    · simp only [List.map_cons]
      rw [if_neg (by simpa using he)]
      simp only [List.map_cons, ih]

theorem mapfst_dictSet (kvs : List (String × PVal)) (k : String) (v : PVal)
    (hk : kvs.any (fun e => e.fst = k)) :
    (dictSet kvs k v).map Prod.fst = kvs.map Prod.fst := by
  rw [dictSet, if_pos hk]
  exact mapfst_mapReplace kvs k v

theorem objDictNodup_dictSet (kvs : List (String × PVal)) (k : String) (v : PVal)
    (h : objDictNodup (Obj.dict kvs)) : objDictNodup (Obj.dict (dictSet kvs k v)) := by
  rw [objDictNodup] at h ⊢
  by_cases hk : kvs.any (fun e => e.fst = k)
  · rw [mapfst_dictSet kvs k v hk]
    exact h
  · rw [dictSet, if_neg hk]
    rw [List.map_append]
    simp only [List.map_cons, List.map_nil]
    rw [List.nodup_append]
    refine ⟨h, by simp, ?_⟩
    intro x hx
    simp only [List.mem_singleton]
    intro hc
    subst hc
    rcases List.mem_map.mp hx with ⟨e, he, hfst⟩
    exact hk (by rw [List.any_eq_true]; exact ⟨e, he, by simp [hfst]⟩)

theorem mapfst_mapReplaceN (l : List (Nat × Obj)) (a : Nat) (o : Obj) :
    (l.map (fun e => if e.fst = a then (a, o) else e)).map Prod.fst = l.map Prod.fst := by
  induction l with
  | nil => simp
  | cons e rest ih =>
    obtain ⟨a1, o1⟩ := e
    by_cases he : a1 = a
    · simp only [List.map_cons]
      rw [if_pos (by simpa using he)]
      simp only [List.map_cons, ih]
      simp [he]
    · simp only [List.map_cons]
      rw [if_neg (by simpa using he)]
      simp only [List.map_cons, ih]

theorem wf_set (S : Store) (a : Nat) (o : Obj) (hwf : StoreWF S) (ho : objDictNodup o) :
    StoreWF (S.set a o) := by
  obtain ⟨h1, h2, h3⟩ := hwf
  refine ⟨?_, ?_, ?_⟩
  · rw [Store.set]
    simp only []
    rw [mapfst_mapReplaceN]
    exact h1
  · intro e he
    rw [Store.set] at he
    simp only [List.mem_map] at he
    obtain ⟨e0, he0, hee⟩ := he
    by_cases hc : e0.fst = a
    · rw [if_pos hc] at hee
      subst hee
      simpa [Store.set, ← hc] using h2 e0 he0
    · rw [if_neg hc] at hee
      subst hee
      exact h2 e0 he0
  · intro e he
    rw [Store.set] at he
    simp only [List.mem_map] at he
    obtain ⟨e0, he0, hee⟩ := he
    by_cases hc : e0.fst = a
    · rw [if_pos hc] at hee
      subst hee
      exact ho
    · rw [if_neg hc] at hee
      subst hee
      exact h3 e0 he0

theorem wf_alloc (S : Store) (o : Obj) (hwf : StoreWF S) (ho : objDictNodup o) :
    StoreWF (S.alloc o) := by
  obtain ⟨h1, h2, h3⟩ := hwf
  refine ⟨?_, ?_, ?_⟩
  · rw [Store.alloc]
    simp only [List.map_append, List.map_cons, List.map_nil]
    rw [List.nodup_append]
    refine ⟨h1, by simp, ?_⟩
    intro x hx
    simp only [List.mem_singleton]
    intro hc
    subst hc
    rcases List.mem_map.mp hx with ⟨e, he, hfst⟩
    have := h2 e he
    omega
  · intro e he
    rw [Store.alloc] at he
    simp only [List.mem_append, List.mem_singleton] at he
    rcases he with he | he
    · have := h2 e he
      simp [Store.alloc]
      omega
    · subst he
      simp [Store.alloc]
  · intro e he
    rw [Store.alloc] at he
    simp only [List.mem_append, List.mem_singleton] at he
    rcases he with he | he
    · exact h3 e he
    · subst he
      exact ho

theorem wf_objDictNodup (S : Store) (a : Nat) (kvs : List (String × PVal))
    (hwf : StoreWF S) (h : S.get a = some (Obj.dict kvs)) :
    (kvs.map Prod.fst).Nodup := by
  have hmem := lookupPairs_mem S.objs a (Obj.dict kvs) h
  have := hwf.2.2 (a, Obj.dict kvs) hmem
  rw [objDictNodup] at this
  exact this

mutual

theorem reprOk_frame (t : DTree) (S S2 : Store) (v : PVal)
    (hfr : ∀ a ∈ addrsT t, S2.get a = S.get a) (h : reprOk S v t = true) :
    reprOk S2 v t = true := by
  match t with
  | DTree.scalar w =>
    cases v <;> simp [reprOk] at h ⊢ <;> exact h
  | DTree.dnode a2 kids =>
    match v with
    | PVal.none => simp [reprOk] at h
    | PVal.int n => simp [reprOk] at h
    | PVal.str s => simp [reprOk] at h
    | PVal.ref a =>
      rw [reprOk] at h
      rw [reprOk]
      rw [Bool.and_eq_true] at h
      obtain ⟨heq, hrest⟩ := h
      have ha2 : a = a2 := by simpa using heq
      rw [Bool.and_eq_true]
      refine ⟨heq, ?_⟩
      have hget : S2.get a = S.get a := by
        apply hfr
        rw [addrsT, ha2]
        simp
      rw [hget]
      cases hq : S.get a with
      | none => rw [hq] at hrest; simp at hrest
      | some o =>
        rw [hq] at hrest
        cases o with
        | list xs => simp at hrest
        | dict kvs =>
          simp only [] at hrest ⊢
          exact reprKids_frame kids S S2 kvs
            (fun b hb => hfr b (by rw [addrsT]; simp [hb])) hrest
  | DTree.lnode a2 =>
    match v with
    | PVal.none => simp [reprOk] at h
    | PVal.int n => simp [reprOk] at h
    | PVal.str s => simp [reprOk] at h
    | PVal.ref a =>
      rw [reprOk] at h
      rw [reprOk]
      rw [Bool.and_eq_true] at h
      obtain ⟨heq, hrest⟩ := h
      have ha2 : a = a2 := by simpa using heq
      rw [Bool.and_eq_true]
      refine ⟨heq, ?_⟩
      have hget : S2.get a = S.get a := by
        apply hfr
        rw [addrsT, ha2]
        simp
      rw [hget]
      exact hrest

theorem reprKids_frame (kids : DKids) (S S2 : Store) (kvs : List (String × PVal))
    (hfr : ∀ a ∈ addrsK kids, S2.get a = S.get a) (h : reprKids S kvs kids = true) :
    reprKids S2 kvs kids = true := by
  match kids, kvs with
  | DKids.nil, [] =>
    rw [reprKids]
  | DKids.nil, kv :: rest => simp [reprKids] at h
  | DKids.cons k2 t kr, [] => simp [reprKids] at h
  | DKids.cons k2 t kr, (k, v) :: rest =>
    rw [reprKids] at h
    rw [reprKids]
    rw [Bool.and_eq_true, Bool.and_eq_true] at h ⊢
    obtain ⟨⟨hk, hv⟩, hr⟩ := h
    refine ⟨⟨hk, ?_⟩, ?_⟩
    · exact reprOk_frame t S S2 v (fun a ha => hfr a (by rw [addrsK]; simp [ha])) hv
    · exact reprKids_frame kr S S2 rest (fun a ha => hfr a (by rw [addrsK]; simp [ha])) hr

end

mutual

theorem reprOk_isSome (t : DTree) (S : Store) (v : PVal) (h : reprOk S v t = true) :
    ∀ a ∈ addrsT t, (S.get a).isSome := by
  match t with
  | DTree.scalar w =>
    intro a ha
    rw [addrsT] at ha
    simp at ha
  | DTree.dnode a2 kids =>
    match v with
    | PVal.none => simp [reprOk] at h
    | PVal.int n => simp [reprOk] at h
    | PVal.str s => simp [reprOk] at h
    | PVal.ref a0 =>
      rw [reprOk, Bool.and_eq_true] at h
      obtain ⟨heq, hrest⟩ := h
      have ha2 : a0 = a2 := by simpa using heq
      intro a ha
      rw [addrsT] at ha
      rcases List.mem_cons.mp ha with ha | ha
      · subst ha
        rw [← ha2]
        cases hq : S.get a0 with
        | none => rw [hq] at hrest; simp at hrest
        | some o => simp
      · cases hq : S.get a0 with
        | none => rw [hq] at hrest; simp at hrest
        | some o =>
          rw [hq] at hrest
          cases o with
          | list xs => simp at hrest
          | dict kvs => exact reprKids_isSome kids S kvs hrest a ha
  | DTree.lnode a2 =>
    match v with
    | PVal.none => simp [reprOk] at h
    | PVal.int n => simp [reprOk] at h
    | PVal.str s => simp [reprOk] at h
    | PVal.ref a0 =>
      rw [reprOk, Bool.and_eq_true] at h
      obtain ⟨heq, hrest⟩ := h
      have ha2 : a0 = a2 := by simpa using heq
      intro a ha
      rw [addrsT] at ha
      simp at ha
      subst ha
      rw [← ha2]
      cases hq : S.get a0 with
      | none => rw [hq] at hrest; simp at hrest
      | some o => simp

theorem reprKids_isSome (kids : DKids) (S : Store) (kvs : List (String × PVal))
    (h : reprKids S kvs kids = true) : ∀ a ∈ addrsK kids, (S.get a).isSome := by
  match kids, kvs with
  | DKids.nil, [] =>
    intro a ha
    rw [addrsK] at ha
    simp at ha
  | DKids.nil, kv :: rest => simp [reprKids] at h
  | DKids.cons k2 t kr, [] => simp [reprKids] at h
  | DKids.cons k2 t kr, (k, v) :: rest =>
    rw [reprKids, Bool.and_eq_true, Bool.and_eq_true] at h
    obtain ⟨⟨hk, hv⟩, hr⟩ := h
    intro a ha
    rw [addrsK] at ha
    rcases List.mem_append.mp ha with ha | ha
    · exact reprOk_isSome t S v hv a ha
    · exact reprKids_isSome kr S rest hr a ha

end

theorem reprKids_lookup (kids : DKids) (S : Store) (kvs : List (String × PVal))
    (h : reprKids S kvs kids = true) (k : String) (w : PVal)
    (hl : List.lookup k kvs = some w) : reprOk S w (kidTree k kids) = true := by
  match kids, kvs with
  | DKids.nil, [] => simp at hl
  | DKids.nil, kv :: rest => simp [reprKids] at h
  | DKids.cons k2 t kr, [] => simp [reprKids] at h
  | DKids.cons k2 t kr, (k1, v1) :: rest =>
    rw [reprKids, Bool.and_eq_true, Bool.and_eq_true] at h
    obtain ⟨⟨hk, hv⟩, hr⟩ := h
    have hk12 : k1 = k2 := by simpa using hk
    rw [List.lookup] at hl
    by_cases hkk : k = k1
    · rw [show (k == k1) = true by simp [hkk]] at hl
      cases hl
      rw [kidTree, if_pos (hkk.trans hk12)]
      exact hv
    · rw [show (k == k1) = false by simp [hkk]] at hl
      rw [kidTree, if_neg (by rw [← hk12]; exact hkk)]
      exact reprKids_lookup kr S rest hr k w hl

theorem addrsT_kidTree_sub (kids : DKids) (k : String) :
    ∀ a ∈ addrsT (kidTree k kids), a ∈ addrsK kids := by
  match kids with
  | DKids.nil =>
    intro a ha
    rw [kidTree, addrsT] at ha
    simp at ha
  | DKids.cons k2 t kr =>
    intro a ha
    rw [kidTree] at ha
    rw [addrsK]
    by_cases hkk : k = k2
    · rw [if_pos hkk] at ha
      exact List.mem_append_left _ ha
    · rw [if_neg hkk] at ha
      exact List.mem_append_right _ (addrsT_kidTree_sub kr k a ha)

theorem nodup_kidTree (kids : DKids) (k : String) (h : (addrsK kids).Nodup) :
    (addrsT (kidTree k kids)).Nodup := by
  match kids with
  | DKids.nil =>
    rw [kidTree, addrsT]
    simp
  | DKids.cons k2 t kr =>
    rw [addrsK, List.nodup_append] at h
    rw [kidTree]
    by_cases hkk : k = k2
    · rw [if_pos hkk]
      exact h.1
    · rw [if_neg hkk]
      exact nodup_kidTree kr k h.2.1

theorem kidTree_disjoint (kids : DKids) (k1 k2 : String) (h : (addrsK kids).Nodup)
    (hne : k1 ≠ k2) : ∀ a ∈ addrsT (kidTree k1 kids), a ∉ addrsT (kidTree k2 kids) := by
  match kids with
  | DKids.nil =>
    intro a ha
    rw [kidTree, addrsT] at ha
    simp at ha
  | DKids.cons k0 t kr =>
    rw [addrsK, List.nodup_append] at h
    intro a ha hb
    rw [kidTree] at ha hb
    by_cases h1 : k1 = k0
    · rw [if_pos h1] at ha
      rw [if_neg (by rw [← h1]; exact fun hc => hne hc.symm)] at hb
      exact h.2.2 ha (addrsT_kidTree_sub kr k2 a hb)
    · rw [if_neg h1] at ha
      by_cases h2 : k2 = k0
      · rw [if_pos h2] at hb
        exact h.2.2 hb (addrsT_kidTree_sub kr k1 a ha)
      · rw [if_neg h2] at hb
        exact kidTree_disjoint kr k1 k2 h.2.1 hne a ha hb

theorem mergeScalarVal_bad (key : String) (value dst : PVal) (ov : Bool) (S : Store)
    (h : notDictRef S dst) : (mergeScalarVal key value dst ov S).2 = S := by
  cases dst with
  | ref da =>
    rw [notDictRef] at h
    cases hq : S.get da with
    | none =>
      cases ov <;> simp [mergeScalarVal, hq]
    | some o =>
      cases o with
      | dict kvs => exact absurd hq (h kvs)
      | list xs =>
        cases ov with
        | true => simp [mergeScalarVal, hq]
        | false =>
          simp only [mergeScalarVal, Bool.false_eq_true, if_false, hq]
          by_cases hc : xs.contains (PVal.str key)
          · rw [if_pos hc]
          · rw [if_neg hc]
  | none => cases ov <;> rfl
  | int n => cases ov <;> rfl
  | str s =>
    cases ov with
    | true => rfl
    | false =>
      simp only [mergeScalarVal, Bool.false_eq_true, if_false]
      by_cases hc : listInfixChk key.toList s.toList
      · rw [if_pos hc]
      · rw [if_neg hc]

theorem mergeListVal_bad (key : String) (srcElems : List PVal) (value dst : PVal)
    (ov : Bool) (S : Store) (h : notDictRef S dst) :
    (mergeListVal key srcElems value dst ov S).2 = S := by
  cases dst with
  | ref da =>
    rw [notDictRef] at h
    cases hq : S.get da with
    | none => simp [mergeListVal, hq]
    | some o =>
      cases o with
      | dict kvs => exact absurd hq (h kvs)
      | list xs => simp [mergeListVal, hq]
  | none => rfl
  | int n => rfl
  | str s => rfl

theorem mergeDictVal_bad (fuel : Nat) (key : String) (value dst : PVal) (ov : Bool)
    (S : Store) (h : notDictRef S dst) : (mergeDictVal fuel key value dst ov S).2 = S := by
  match fuel with
  | 0 => rfl
  | g + 1 =>
    cases dst with
    | ref da =>
      rw [notDictRef] at h
      cases hq : S.get da with
      | none => simp [mergeDictVal, hq]
      | some o =>
        cases o with
        | dict kvs => exact absurd hq (h kvs)
        | list xs => simp [mergeDictVal, hq]
    | none => rfl
    | int n => rfl
    | str s => rfl

theorem mergeOne_bad (fuel : Nat) (key : String) (value dst : PVal) (ov : Bool)
    (S : Store) (h : notDictRef S dst) : (mergeOne fuel key value dst ov S).2 = S := by
  match fuel with
  | 0 => rfl
  | g + 1 =>
    cases value with
    | ref va =>
      cases hq : S.get va with
      | none => simp [mergeOne, hq]
      | some o =>
        cases o with
        | dict kvs =>
          simp only [mergeOne, hq]
          exact mergeDictVal_bad g key (PVal.ref va) dst ov S h
        | list xs =>
          simp only [mergeOne, hq]
          exact mergeListVal_bad key xs (PVal.ref va) dst ov S h
    | none => exact mergeScalarVal_bad key PVal.none dst ov S h
    | int n => exact mergeScalarVal_bad key (PVal.int n) dst ov S h
    | str s => exact mergeScalarVal_bad key (PVal.str s) dst ov S h

theorem mergeItems_bad (fuel : Nat) : ∀ (items : List (String × PVal)) (dst : PVal)
    (ov : Bool) (S : Store), notDictRef S dst → (mergeItems fuel items dst ov S).2 = S := by
  induction fuel with
  | zero => intro items dst ov S h; rfl
  | succ g ih =>
    intro items dst ov S h
    match items with
    | [] => rfl
    | (key, value) :: rest =>
      rw [mergeItems]
      have h1 := mergeOne_bad g key value dst ov S h
      cases hq : mergeOne g key value dst ov S with
      | mk r S2 =>
        rw [hq] at h1
        simp only [] at h1
        subst h1
        cases r with
        | ok u => simp only []; exact ih rest dst ov _ h
        | err e => rfl
        | fuelOut => rfl

theorem set_next (S : Store) (a : Nat) (o : Obj) : (S.set a o).next = S.next := rfl

theorem alloc_next (S : Store) (o : Obj) : (S.alloc o).next = S.next + 1 := rfl

theorem mergeScalarVal_out (key : String) (value : PVal) (ov : Bool) (S : Store) (da : Nat)
    (dkvs : List (String × PVal)) (hwf : StoreWF S) (hda : S.get da = some (Obj.dict dkvs)) :
    (∀ a, a < S.next → a ≠ da →
      ((mergeScalarVal key value (PVal.ref da) ov S).2.get a = S.get a)) ∧
    S.next ≤ (mergeScalarVal key value (PVal.ref da) ov S).2.next ∧
    StoreWF (mergeScalarVal key value (PVal.ref da) ov S).2 ∧
    (∃ dkvs2, (mergeScalarVal key value (PVal.ref da) ov S).2.get da = some (Obj.dict dkvs2) ∧
      ∀ k2, k2 ≠ key → List.lookup k2 dkvs2 = List.lookup k2 dkvs) := by
  have hnodup : objDictNodup (Obj.dict (dictSet dkvs key value)) := by
    apply objDictNodup_dictSet
    rw [objDictNodup]
    exact wf_objDictNodup S da dkvs hwf hda
  have hsetcase :
      (∀ a, a < S.next → a ≠ da →
        ((S.set da (Obj.dict (dictSet dkvs key value))).get a = S.get a)) ∧
      S.next ≤ (S.set da (Obj.dict (dictSet dkvs key value))).next ∧
      StoreWF (S.set da (Obj.dict (dictSet dkvs key value))) ∧
      (∃ dkvs2, (S.set da (Obj.dict (dictSet dkvs key value))).get da = some (Obj.dict dkvs2) ∧
        ∀ k2, k2 ≠ key → List.lookup k2 dkvs2 = List.lookup k2 dkvs) := by
    refine ⟨?_, ?_, ?_, ?_⟩
    · intro a _ hne
      exact get_set_ne S da a _ hne
    · rw [set_next]
    · exact wf_set S da _ hwf hnodup
    · refine ⟨dictSet dkvs key value, ?_, ?_⟩
      · exact get_set_same S da _ (by rw [hda]; rfl)
      · intro k2 hk2
        exact lookup_dictSet_ne dkvs key k2 value hk2
  cases ov with
  | true =>
    simp only [mergeScalarVal, if_pos rfl, hda]
    exact hsetcase
  | false =>
    simp only [mergeScalarVal, Bool.false_eq_true, if_false, hda]
    cases hl : List.lookup key dkvs with
    | some w =>
      refine ⟨fun a _ _ => rfl, le_refl _, hwf, ⟨dkvs, hda, fun k2 _ => rfl⟩⟩
    | none =>
      exact hsetcase

theorem set_dictSet_out (S : Store) (da : Nat) (dkvs : List (String × PVal))
    (key : String) (v : PVal) (hwf : StoreWF S) (hda : S.get da = some (Obj.dict dkvs)) :
    (∀ a, a ≠ da → ((S.set da (Obj.dict (dictSet dkvs key v))).get a = S.get a)) ∧
    (S.set da (Obj.dict (dictSet dkvs key v))).next = S.next ∧
    StoreWF (S.set da (Obj.dict (dictSet dkvs key v))) ∧
    (S.set da (Obj.dict (dictSet dkvs key v))).get da = some (Obj.dict (dictSet dkvs key v)) := by
  refine ⟨?_, rfl, ?_, ?_⟩
  · intro a hne
    exact get_set_ne S da a _ hne
  · apply wf_set S da _ hwf
    apply objDictNodup_dictSet
    rw [objDictNodup]
    exact wf_objDictNodup S da dkvs hwf hda
  · exact get_set_same S da _ (by rw [hda]; rfl)

theorem reprOk_list_forces_lnode (S : Store) (la : Nat) (tk : DTree) (xs : List PVal)
    (hget : S.get la = some (Obj.list xs)) (h : reprOk S (PVal.ref la) tk = true) :
    tk = DTree.lnode la := by
  cases tk with
  | scalar w => simp [reprOk] at h
  | dnode a2 kids =>
    rw [reprOk, Bool.and_eq_true] at h
    obtain ⟨heq, hrest⟩ := h
    rw [hget] at hrest
    simp at hrest
  | lnode a2 =>
    rw [reprOk, Bool.and_eq_true] at h
    have ha2 : la = a2 := by simpa using h.1
    rw [ha2]

theorem mergeListVal_out (key : String) (srcElems : List PVal) (value : PVal) (ov : Bool)
    (S : Store) (da : Nat) (dkvs : List (String × PVal)) (tk : DTree)
    (hwf : StoreWF S) (hda : S.get da = some (Obj.dict dkvs))
    (hkid : ∀ w, List.lookup key dkvs = some w → reprOk S w tk = true) :
    (∀ a, a < S.next → a ≠ da → a ∉ addrsT tk →
      ((mergeListVal key srcElems value (PVal.ref da) ov S).2.get a = S.get a)) ∧
    S.next ≤ (mergeListVal key srcElems value (PVal.ref da) ov S).2.next ∧
    StoreWF (mergeListVal key srcElems value (PVal.ref da) ov S).2 ∧
    (∃ dkvs2,
      (mergeListVal key srcElems value (PVal.ref da) ov S).2.get da = some (Obj.dict dkvs2) ∧
      ∀ k2, k2 ≠ key → List.lookup k2 dkvs2 = List.lookup k2 dkvs) := by
  have hdalt : da < S.next := get_isSome_lt S da (by rw [hda]; rfl) hwf
  cases hl : List.lookup key dkvs with
  | none =>
    simp only [mergeListVal, hda, hl]
    obtain ⟨hfr, hnx, hwf2, hget⟩ := set_dictSet_out S da dkvs key value hwf hda
    refine ⟨fun a _ hne _ => hfr a hne, by rw [hnx], hwf2, ⟨dictSet dkvs key value, hget, ?_⟩⟩
    intro k2 hk2
    exact lookup_dictSet_ne dkvs key k2 value hk2
  | some dstVal =>
    simp only [mergeListVal, hda, hl]
    cases hco : (ov && !(isListVal S dstVal)) with
    | true =>
      rw [if_pos rfl]
      -- coercion: destination[key] = [] (fresh object f), then combine with xs = []
      have hwfA : StoreWF (S.alloc (Obj.list [])) :=
        wf_alloc S _ hwf (by rw [objDictNodup]; trivial)
      have hdaA : (S.alloc (Obj.list [])).get da = some (Obj.dict dkvs) := by
        rw [get_alloc_lt S _ da hdalt]
        exact hda
      obtain ⟨hfr2, hnx2, hwf2, hget2⟩ :=
        set_dictSet_out (S.alloc (Obj.list [])) da dkvs key (PVal.ref S.next) hwfA hdaA
      set S2 := (S.alloc (Obj.list [])).set da (Obj.dict (dictSet dkvs key (PVal.ref S.next)))
        with hS2def
      have hS2next : S2.next = S.next + 1 := by rw [hnx2, alloc_next]
      have hS2fr : ∀ a, a < S.next → a ≠ da → S2.get a = S.get a := by
        intro a ha hne
        rw [hfr2 a hne, get_alloc_lt S _ a ha]
      have hS2da : S2.get da = some (Obj.dict (dictSet dkvs key (PVal.ref S.next))) := hget2
      have hS2f : S2.get S.next = some (Obj.list []) := by
        rw [hfr2 S.next (by omega), get_alloc_self S _ hwf]
      rw [mergeListCombine]
      simp only [List.nil_append]
      cases hh : srcElems.all PVal.isHashable with
      | true =>
        rw [if_pos rfl]
        have hdaS2 : da < S2.next := by omega
        obtain ⟨hfr3, hnx3, hwf3, hget3⟩ :=
          set_dictSet_out (S2.alloc (Obj.list (dedupFirst srcElems))) da
            (dictSet dkvs key (PVal.ref S.next)) key (PVal.ref S2.next)
            (wf_alloc S2 _ hwf2 (by rw [objDictNodup]; trivial))
            (by rw [get_alloc_lt S2 _ da hdaS2]; exact hS2da)
        refine ⟨?_, ?_, hwf3, ?_⟩
        · intro a ha hne _
          rw [hfr3 a hne, get_alloc_lt S2 _ a (by omega), hS2fr a ha hne]
        · rw [hnx3, alloc_next]
          omega
        · refine ⟨_, hget3, ?_⟩
          intro k2 hk2
          rw [lookup_dictSet_ne _ key k2 _ hk2, lookup_dictSet_ne _ key k2 _ hk2]
      | false =>
        rw [if_neg (by simp)]
        have hfne : S.next ≠ da := by omega
        refine ⟨?_, ?_, ?_, ?_⟩
        · intro a ha hne _
          rw [get_set_ne S2 S.next a _ (by omega), hS2fr a ha hne]
        · rw [set_next, hS2next]
          omega
        · exact wf_set S2 S.next _ hwf2 (by rw [objDictNodup]; trivial)
        · refine ⟨dictSet dkvs key (PVal.ref S.next), ?_, ?_⟩
          · rw [get_set_ne S2 S.next da _ (Ne.symm hfne)]
            exact hS2da
          · intro k2 hk2
            exact lookup_dictSet_ne dkvs key k2 _ hk2
    | false =>
      rw [if_neg (by simp)]
      cases dstVal with
      | ref la =>
        simp only []
        cases hgl : S.get la with
        | none =>
          exact ⟨fun a _ _ _ => rfl, le_refl _, hwf, ⟨dkvs, hda, fun k2 _ => rfl⟩⟩
        | some o =>
          cases o with
          | dict kvs2 =>
            exact ⟨fun a _ _ _ => rfl, le_refl _, hwf, ⟨dkvs, hda, fun k2 _ => rfl⟩⟩
          | list xs =>
            simp only []
            have htk : tk = DTree.lnode la :=
              reprOk_list_forces_lnode S la tk xs hgl (hkid (PVal.ref la) hl)
            have hdla : da ≠ la := by
              intro hc
              rw [hc, hgl] at hda
              simp at hda
            rw [mergeListCombine]
            cases hh : (xs ++ srcElems).all PVal.isHashable with
            | true =>
              rw [if_pos rfl]
              obtain ⟨hfr2, hnx2, hwf2, hget2⟩ :=
                set_dictSet_out (S.alloc (Obj.list (dedupFirst (xs ++ srcElems)))) da dkvs key
                  (PVal.ref S.next) (wf_alloc S _ hwf (by rw [objDictNodup]; trivial))
                  (by rw [get_alloc_lt S _ da hdalt]; exact hda)
              refine ⟨?_, ?_, hwf2, ?_⟩
              · intro a ha hne _
                rw [hfr2 a hne, get_alloc_lt S _ a ha]
              · rw [hnx2, alloc_next]
                omega
              · refine ⟨_, hget2, ?_⟩
                intro k2 hk2
                exact lookup_dictSet_ne dkvs key k2 _ hk2
            | false =>
              rw [if_neg (by simp)]
              refine ⟨?_, ?_, ?_, ?_⟩
              · intro a _ _ hnotk
                apply get_set_ne
                rw [htk] at hnotk
                rw [addrsT] at hnotk
                simp at hnotk
                exact hnotk
              · rw [set_next]
              · exact wf_set S la _ hwf (by rw [objDictNodup]; trivial)
              · refine ⟨dkvs, ?_, fun k2 _ => rfl⟩
                rw [get_set_ne S la da _ hdla]
                exact hda
      | none =>
        simp only []
        exact ⟨fun a _ _ _ => trivial, le_refl _, hwf, ⟨dkvs, hda, fun k2 _ => rfl⟩⟩
      | int n =>
        simp only []
        exact ⟨fun a _ _ _ => trivial, le_refl _, hwf, ⟨dkvs, hda, fun k2 _ => rfl⟩⟩
      | str s =>
        simp only []
        exact ⟨fun a _ _ _ => trivial, le_refl _, hwf, ⟨dkvs, hda, fun k2 _ => rfl⟩⟩

theorem toUnit_snd (r : MRes PVal × Store) : (toUnit r).2 = r.2 := by
  obtain ⟨m, S⟩ := r
  cases m <;> rfl

theorem Reaches_frame (S S2 : Store) (v : PVal)
    (hfr : ∀ c, Reaches S v c → S2.get c = S.get c) :
    ∀ b, Reaches S2 v b → Reaches S v b := by
  intro b h
  induction h with
  | here a => exact Reaches.here a
  | via a o v2 b2 hget hmem _ ih =>
    have hga : S2.get a = S.get a := hfr a (Reaches.here a)
    rw [hga] at hget
    refine Reaches.via a o v2 b2 hget hmem (ih ?_)
    intro c hc
    exact hfr c (Reaches.via a o v2 c hget hmem hc)

theorem reprOk_dict_forces_dnode (S : Store) (da : Nat) (t : DTree)
    (dkvs : List (String × PVal)) (hget : S.get da = some (Obj.dict dkvs))
    (h : reprOk S (PVal.ref da) t = true) :
    ∃ kids, t = DTree.dnode da kids ∧ reprKids S dkvs kids = true := by
  cases t with
  | scalar w => simp [reprOk] at h
  | lnode a2 =>
    rw [reprOk, Bool.and_eq_true] at h
    obtain ⟨heq, hrest⟩ := h
    rw [hget] at hrest
    simp at hrest
  | dnode a2 kids =>
    rw [reprOk, Bool.and_eq_true] at h
    obtain ⟨heq, hrest⟩ := h
    have ha2 : da = a2 := by simpa using heq
    rw [hget] at hrest
    simp only [] at hrest
    exact ⟨kids, by rw [← ha2], hrest⟩

theorem kidRegion_mem (kidsF : String → DTree) (items : List (String × PVal)) (b : Nat)
    (h : b ∈ kidRegion kidsF items) :
    ∃ kv ∈ items, b ∈ addrsT (kidsF kv.fst) := by
  induction items with
  | nil => simp [kidRegion] at h
  | cons kv rest ih =>
    rw [kidRegion, List.mem_append] at h
    cases h with
    | inl h1 => exact ⟨kv, by simp, h1⟩
    | inr h2 =>
      obtain ⟨kv2, hkv2, hb⟩ := ih h2
      exact ⟨kv2, by simp [hkv2], hb⟩

theorem kidRegion_sublist (kidsF : String → DTree) (kv : String × PVal)
    (rest : List (String × PVal)) (da : Nat)
    (h : (da :: kidRegion kidsF (kv :: rest)).Nodup) :
    (da :: kidRegion kidsF rest).Nodup := by
  apply List.Nodup.sublist ?_ h
  apply List.Sublist.cons₂
  rw [kidRegion]
  exact List.sublist_append_right _ _

theorem kidRegion_of_mem (kidsF : String → DTree) (items : List (String × PVal))
    (kv : String × PVal) (b : Nat) (hkv : kv ∈ items) (hb : b ∈ addrsT (kidsF kv.fst)) :
    b ∈ kidRegion kidsF items := by
  induction items with
  | nil => simp at hkv
  | cons kv0 rest ih =>
    rw [kidRegion, List.mem_append]
    rcases List.mem_cons.mp hkv with h0 | h1
    · subst h0
      exact Or.inl hb
    · exact Or.inr (ih h1)

theorem kidRegion_sub_kids (kids : DKids) (items : List (String × PVal)) (b : Nat)
    (hb : b ∈ kidRegion (fun k => kidTree k kids) items) : b ∈ addrsK kids := by
  induction items with
  | nil => simp [kidRegion] at hb
  | cons kv rest ih =>
    rw [kidRegion, List.mem_append] at hb
    cases hb with
    | inl h1 => exact addrsT_kidTree_sub kids kv.fst b h1
    | inr h2 => exact ih h2

theorem nodup_kidRegion (kids : DKids) (items : List (String × PVal))
    (hnd : (addrsK kids).Nodup) (hkeys : (items.map Prod.fst).Nodup) :
    (kidRegion (fun k => kidTree k kids) items).Nodup := by
  induction items with
  | nil => simp [kidRegion]
  | cons kv rest ih =>
    rw [kidRegion, List.nodup_append]
    rw [List.map_cons, List.nodup_cons] at hkeys
    refine ⟨nodup_kidTree kids kv.fst hnd, ih hkeys.2, ?_⟩
    intro b hb hb2
    obtain ⟨kv2, hkv2, hbk⟩ := kidRegion_mem _ rest b hb2
    have hne : kv.fst ≠ kv2.fst := by
      intro hc
      exact hkeys.1 (hc ▸ List.mem_map.mpr ⟨kv2, hkv2, rfl⟩)
    exact kidTree_disjoint kids kv.fst kv2.fst hnd hne b hb hbk

theorem mergeStmts_zero : Pstmt 0 ∧ Qtstmt 0 ∧ Qistmt 0 ∧ Qostmt 0 ∧ Qdstmt 0 := by
  refine ⟨?_, ?_, ?_, ?_, ?_⟩
  · intro src dst ov S t hwf _ _ _
    exact ⟨fun a _ _ => rfl, le_refl _, hwf⟩
  · intro src dst ov S t hwf _ _ _
    exact ⟨fun a _ _ => rfl, le_refl _, hwf⟩
  · intro items da ov S dkvs kidsF hwf hda _ _ _ _
    exact ⟨⟨fun a _ _ => rfl, le_refl _, hwf⟩, dkvs, hda, fun k2 _ => rfl⟩
  · intro key value da ov S dkvs tk hwf hda _ _ _ _
    exact ⟨fun a _ _ _ => rfl, le_refl _, hwf, dkvs, hda, fun k2 _ => rfl⟩
  · intro key value da ov S dkvs tk hwf hda _ _ _ _
    exact ⟨fun a _ _ _ => rfl, le_refl _, hwf, dkvs, hda, fun k2 _ => rfl⟩

theorem lemQo (fuel : Nat) (hQd : Qdstmt fuel) : Qostmt (fuel + 1) := by
  intro key value da ov S dkvs tk hwf hda hkid hnd hdak hsep
  cases value with
  | ref va =>
    cases hgv : S.get va with
    | none =>
      simp only [mergeOne, hgv]
      exact ⟨fun a _ _ _ => rfl, le_refl _, hwf, dkvs, hda, fun k2 _ => rfl⟩
    | some o =>
      cases o with
      | dict kvs =>
        simp only [mergeOne, hgv]
        exact hQd key (PVal.ref va) da ov S dkvs tk hwf hda hkid hnd hdak hsep
      | list xs =>
        simp only [mergeOne, hgv]
        exact mergeListVal_out key xs (PVal.ref va) ov S da dkvs tk hwf hda hkid
  | none =>
    have h := mergeScalarVal_out key PVal.none ov S da dkvs hwf hda
    exact ⟨fun a ha hne _ => h.1 a ha hne, h.2.1, h.2.2.1, h.2.2.2⟩
  | int n =>
    have h := mergeScalarVal_out key (PVal.int n) ov S da dkvs hwf hda
    exact ⟨fun a ha hne _ => h.1 a ha hne, h.2.1, h.2.2.1, h.2.2.2⟩
  | str s =>
    have h := mergeScalarVal_out key (PVal.str s) ov S da dkvs hwf hda
    exact ⟨fun a ha hne _ => h.1 a ha hne, h.2.1, h.2.2.1, h.2.2.2⟩

theorem mergeDictVal_fresh (fuel : Nat) (hP : Pstmt fuel) (key : String) (value : PVal)
    (da : Nat) (ov : Bool) (S : Store) (dkvs : List (String × PVal)) (prot : List Nat)
    (hwf : StoreWF S) (hda : S.get da = some (Obj.dict dkvs))
    (hsep : ∀ b, Reaches S value b → b < S.next ∧ b ≠ da) :
    mergeOutDa S (toUnit (merge fuel value (PVal.ref S.next) ov
      ((S.alloc (Obj.dict [])).set da (Obj.dict (dictSet dkvs key (PVal.ref S.next)))))).2
      da prot key dkvs := by
  have hdalt : da < S.next := get_isSome_lt S da (by rw [hda]; rfl) hwf
  set S2 := (S.alloc (Obj.dict [])).set da (Obj.dict (dictSet dkvs key (PVal.ref S.next)))
    with hS2def
  have hS2next : S2.next = S.next + 1 := by
    rw [hS2def, set_next, alloc_next]
  have hS2fr : ∀ a, a < S.next → a ≠ da → S2.get a = S.get a := by
    intro a ha hne
    rw [hS2def, get_set_ne _ da a _ hne, get_alloc_lt S _ a ha]
  have hS2da : S2.get da = some (Obj.dict (dictSet dkvs key (PVal.ref S.next))) := by
    rw [hS2def]
    apply get_set_same
    rw [get_alloc_lt S _ da hdalt, hda]
    rfl
  have hS2f : S2.get S.next = some (Obj.dict []) := by
    rw [hS2def, get_set_ne _ da S.next _ (by omega), get_alloc_self S _ hwf]
  have hwf2 : StoreWF S2 := by
    rw [hS2def]
    apply wf_set _ da _ (wf_alloc S _ hwf (by rw [objDictNodup]; simp))
    apply objDictNodup_dictSet
    rw [objDictNodup]
    exact wf_objDictNodup S da dkvs hwf hda
  have htre : reprOk S2 (PVal.ref S.next) (DTree.dnode S.next DKids.nil) = true := by
    rw [reprOk, hS2f]
    simp only [reprKids]
    simp
  have hsep2 : ∀ b, Reaches S2 value b →
      b < S2.next ∧ b ∉ addrsT (DTree.dnode S.next DKids.nil) := by
    have hfr0 : ∀ c, Reaches S value c → S2.get c = S.get c := by
      intro c hc
      exact hS2fr c (hsep c hc).1 (hsep c hc).2
    intro b hb
    have hbS := Reaches_frame S S2 value hfr0 b hb
    have hlt := (hsep b hbS).1
    constructor
    · omega
    · rw [addrsT, addrsK]
      simp
      omega
  obtain ⟨hfr3, hnx3, hwf3⟩ :=
    hP value (PVal.ref S.next) ov S2 (DTree.dnode S.next DKids.nil) hwf2 htre
      (by rw [addrsT, addrsK]; simp) hsep2
  rw [toUnit_snd]
  have hfrS : ∀ a, a < S.next → a ≠ da →
      (merge fuel value (PVal.ref S.next) ov S2).2.get a = S.get a := by
    intro a ha hne
    rw [hfr3 a (by omega) (by rw [addrsT, addrsK]; simp; omega), hS2fr a ha hne]
  refine ⟨fun a ha hne _ => hfrS a ha hne, by omega, hwf3, ?_⟩
  refine ⟨dictSet dkvs key (PVal.ref S.next), ?_, ?_⟩
  · rw [hfr3 da (by omega) (by rw [addrsT, addrsK]; simp; omega)]
    exact hS2da
  · intro k2 hk2
    exact lookup_dictSet_ne dkvs key k2 _ hk2

theorem lemQd (fuel : Nat) (hP : Pstmt fuel) : Qdstmt (fuel + 1) := by
  intro key value da ov S dkvs tk hwf hda hkid hnd hdak hsep
  have hsep2 : ∀ b, Reaches S value b → b < S.next ∧ b ≠ da := by
    intro b hb
    exact ⟨(hsep b hb).1, (hsep b hb).2.1⟩
  cases hl : List.lookup key dkvs with
  | some w =>
    simp only [mergeDictVal, hda, hl]
    cases hco : (ov && !(isDictVal S (some w))) with
    | true =>
      rw [if_pos rfl]
      exact mergeDictVal_fresh fuel hP key value da ov S dkvs (addrsT tk) hwf hda hsep2
    | false =>
      rw [if_neg (by simp)]
      rw [toUnit_snd]
      obtain ⟨hfr, hnx, hwf2⟩ :=
        hP value w ov S tk hwf (hkid w hl) hnd
          (fun b hb => ⟨(hsep b hb).1, (hsep b hb).2.2⟩)
      have hdaeq : (merge fuel value w ov S).2.get da = S.get da := by
        have hdalt : da < S.next := get_isSome_lt S da (by rw [hda]; rfl) hwf
        exact hfr da hdalt hdak
      refine ⟨fun a ha _ hp => hfr a ha hp, hnx, hwf2, dkvs, ?_, fun k2 _ => rfl⟩
      rw [hdaeq]
      exact hda
  | none =>
    simp only [mergeDictVal, hda, hl]
    cases hco : (ov && !(isDictVal S Option.none)) with
    | true =>
      rw [if_pos rfl]
      exact mergeDictVal_fresh fuel hP key value da ov S dkvs (addrsT tk) hwf hda hsep2
    | false =>
      rw [if_neg (by simp)]
      exact mergeDictVal_fresh fuel hP key value da ov S dkvs (addrsT tk) hwf hda hsep2

theorem lemQi (fuel : Nat) (hQo : Qostmt fuel) (hQi : Qistmt fuel) : Qistmt (fuel + 1) := by
  intro items da ov S dkvs kidsF hwf hda hkid hreg hkeys hsep
  match items with
  | [] =>
    exact ⟨⟨fun a _ _ => rfl, le_refl _, hwf⟩, dkvs, hda, fun k2 _ => rfl⟩
  | (k, v) :: rest =>
    rw [kidRegion] at hreg hsep ⊢
    simp only [] at hreg hsep ⊢
    rw [List.nodup_cons] at hreg
    obtain ⟨hdanotin, hregtail⟩ := hreg
    rw [List.nodup_append] at hregtail
    obtain ⟨hndk, hndrest, hdisj⟩ := hregtail
    have hdak : da ∉ addrsT (kidsF k) := fun hc => hdanotin (List.mem_append.mpr (Or.inl hc))
    have hkv0 : (k, v) ∈ (k, v) :: rest := List.mem_cons_self _ _
    have hsep1 : ∀ b, Reaches S v b → b < S.next ∧ b ≠ da ∧ b ∉ addrsT (kidsF k) := by
      intro b hb
      have h := hsep (k, v) hkv0 b hb
      refine ⟨h.1, ?_, ?_⟩
      · intro hc
        exact h.2 (by rw [hc]; exact List.mem_cons_self _ _)
      · intro hc
        exact h.2 (List.mem_cons.mpr (Or.inr (List.mem_append.mpr (Or.inl hc))))
    obtain ⟨hfr1, hnx1, hwf1, dkvs2, hda2, hpres2⟩ :=
      hQo k v da ov S dkvs (kidsF k) hwf hda (hkid (k, v) hkv0) hndk hdak hsep1
    rw [List.map_cons, List.nodup_cons] at hkeys
    obtain ⟨hknotin, hkeysrest⟩ := hkeys
    have haddrlt : ∀ kv2 ∈ rest, ∀ w, List.lookup kv2.fst dkvs = some w →
        ∀ b ∈ addrsT (kidsF kv2.fst), b < S.next := by
      intro kv2 hkv2 w hw b hb
      exact get_isSome_lt S b (reprOk_isSome _ S w (hkid kv2 (List.mem_cons.mpr (Or.inr hkv2)) w hw) b hb) hwf
    have hbne : ∀ kv2 ∈ rest, ∀ b ∈ addrsT (kidsF kv2.fst),
        b ≠ da ∧ b ∉ addrsT (kidsF k) := by
      intro kv2 hkv2 b hb
      have hbreg : b ∈ kidRegion kidsF rest := kidRegion_of_mem kidsF rest kv2 b hkv2 hb
      constructor
      · intro hc
        exact hdanotin (by rw [hc] at hbreg; exact List.mem_append.mpr (Or.inr hbreg))
      · intro hc
        exact hdisj hc hbreg
    simp only [mergeItems]
    cases hq : mergeOne fuel k v (PVal.ref da) ov S with
    | mk r S2 =>
      rw [hq] at hfr1 hnx1 hwf1 hda2
      simp only [] at hfr1 hnx1 hwf1 hda2
      cases r with
      | err e =>
        simp only []
        refine ⟨⟨?_, hnx1, hwf1⟩, dkvs2, hda2, ?_⟩
        · intro a ha hna
          refine hfr1 a ha (fun hc => hna (by rw [hc]; exact List.mem_cons_self _ _))
            (fun hc => hna (List.mem_cons.mpr (Or.inr (List.mem_append.mpr (Or.inl hc)))))
        · intro k2 hk2
          refine hpres2 k2 (fun hc => hk2 ?_)
          rw [List.map_cons, hc]
          exact List.mem_cons_self _ _
      | fuelOut =>
        simp only []
        refine ⟨⟨?_, hnx1, hwf1⟩, dkvs2, hda2, ?_⟩
        · intro a ha hna
          refine hfr1 a ha (fun hc => hna (by rw [hc]; exact List.mem_cons_self _ _))
            (fun hc => hna (List.mem_cons.mpr (Or.inr (List.mem_append.mpr (Or.inl hc)))))
        · intro k2 hk2
          refine hpres2 k2 (fun hc => hk2 ?_)
          rw [List.map_cons, hc]
          exact List.mem_cons_self _ _
      | ok u =>
        simp only []
        have hkid2 : ∀ kv2 ∈ rest, ∀ w, List.lookup kv2.fst dkvs2 = some w →
            reprOk S2 w (kidsF kv2.fst) = true := by
          intro kv2 hkv2 w hw
          have hne2 : kv2.fst ≠ k := by
            intro hc
            exact hknotin (hc ▸ List.mem_map.mpr ⟨kv2, hkv2, rfl⟩)
          rw [hpres2 kv2.fst hne2] at hw
          have hrep := hkid kv2 (List.mem_cons.mpr (Or.inr hkv2)) w hw
          apply reprOk_frame _ S S2 w ?_ hrep
          intro b hb
          exact hfr1 b (haddrlt kv2 hkv2 w hw b hb) (hbne kv2 hkv2 b hb).1 (hbne kv2 hkv2 b hb).2
        have hreg2 : (da :: kidRegion kidsF rest).Nodup := by
          rw [List.nodup_cons]
          refine ⟨fun hc => hdanotin (List.mem_append.mpr (Or.inr hc)), hndrest⟩
        have hsep2 : ∀ kv2 ∈ rest, ∀ b, Reaches S2 kv2.snd b →
            b < S2.next ∧ b ∉ (da :: kidRegion kidsF rest) := by
          intro kv2 hkv2 b hb
          have hfr0 : ∀ c, Reaches S kv2.snd c → S2.get c = S.get c := by
            intro c hc
            have h := hsep kv2 (List.mem_cons.mpr (Or.inr hkv2)) c hc
            refine hfr1 c h.1 (fun hc2 => h.2 (by rw [hc2]; exact List.mem_cons_self _ _))
              (fun hc2 => h.2 (List.mem_cons.mpr (Or.inr (List.mem_append.mpr (Or.inl hc2)))))
          have hbS := Reaches_frame S S2 kv2.snd hfr0 b hb
          have h := hsep kv2 (List.mem_cons.mpr (Or.inr hkv2)) b hbS
          refine ⟨by omega, ?_⟩
          intro hc
          rcases List.mem_cons.mp hc with hc1 | hc2
          · exact h.2 (by rw [hc1]; exact List.mem_cons_self _ _)
          · exact h.2 (List.mem_cons.mpr (Or.inr (List.mem_append.mpr (Or.inr hc2))))
        obtain ⟨⟨hfrR, hnxR, hwfR⟩, dkvs3, hda3, hpres3⟩ :=
          hQi rest da ov S2 dkvs2 kidsF hwf1 hda2 hkid2 hreg2 hkeysrest hsep2
        refine ⟨⟨?_, by omega, hwfR⟩, dkvs3, hda3, ?_⟩
        · intro a ha hna
          have hna2 : a ∉ (da :: kidRegion kidsF rest) := by
            intro hc
            rcases List.mem_cons.mp hc with hc1 | hc2
            · exact hna (by rw [hc1]; exact List.mem_cons_self _ _)
            · exact hna (List.mem_cons.mpr (Or.inr (List.mem_append.mpr (Or.inr hc2))))
          rw [hfrR a (by omega) hna2]
          refine hfr1 a ha (fun hc => hna (by rw [hc]; exact List.mem_cons_self _ _))
            (fun hc => hna (List.mem_cons.mpr (Or.inr (List.mem_append.mpr (Or.inl hc)))))
        · intro k2 hk2
          rw [List.map_cons] at hk2
          have hk2k : k2 ≠ k := fun hc => hk2 (by rw [hc]; exact List.mem_cons_self _ _)
          have hk2rest : k2 ∉ rest.map Prod.fst := fun hc => hk2 (List.mem_cons.mpr (Or.inr hc))
          rw [hpres3 k2 hk2rest]
          exact hpres2 k2 hk2k

theorem lemQt (fuel : Nat) (hQi : Qistmt fuel) : Qtstmt (fuel + 1) := by
  intro src dst ov S t hwf ht hnd hsep
  cases src with
  | none => exact ⟨fun x _ _ => rfl, le_refl _, hwf⟩
  | int n => exact ⟨fun x _ _ => rfl, le_refl _, hwf⟩
  | str s => exact ⟨fun x _ _ => rfl, le_refl _, hwf⟩
  | ref a =>
    cases hga : S.get a with
    | none =>
      simp only [mergeTruthy, hga]
      exact ⟨fun x _ _ => rfl, le_refl _, hwf⟩
    | some o =>
      cases o with
      | list xs =>
        simp only [mergeTruthy, hga]
        exact ⟨fun x _ _ => rfl, le_refl _, hwf⟩
      | dict kvs =>
        have hout : mergeOutT S (mergeItems fuel kvs dst ov S).2 (addrsT t) := by
          cases dst with
          | none =>
            rw [mergeItems_bad fuel kvs PVal.none ov S (by simp [notDictRef])]
            exact ⟨fun x _ _ => rfl, le_refl _, hwf⟩
          | int m =>
            rw [mergeItems_bad fuel kvs (PVal.int m) ov S (by simp [notDictRef])]
            exact ⟨fun x _ _ => rfl, le_refl _, hwf⟩
          | str s2 =>
            rw [mergeItems_bad fuel kvs (PVal.str s2) ov S (by simp [notDictRef])]
            exact ⟨fun x _ _ => rfl, le_refl _, hwf⟩
          | ref da =>
            cases hdd : S.get da with
            | none =>
              rw [mergeItems_bad fuel kvs (PVal.ref da) ov S
                (by rw [notDictRef]; intro kvs2 hc; rw [hdd] at hc; cases hc)]
              exact ⟨fun x _ _ => rfl, le_refl _, hwf⟩
            | some o2 =>
              cases o2 with
              | list ys =>
                rw [mergeItems_bad fuel kvs (PVal.ref da) ov S
                  (by rw [notDictRef]; intro kvs2 hc; rw [hdd] at hc; cases hc)]
                exact ⟨fun x _ _ => rfl, le_refl _, hwf⟩
              | dict ddkvs =>
                obtain ⟨kids, rfl, hkids⟩ := reprOk_dict_forces_dnode S da t ddkvs hdd ht
                rw [addrsT] at hnd
                rw [List.nodup_cons] at hnd
                obtain ⟨hdan, hndk⟩ := hnd
                have srckeys : (kvs.map Prod.fst).Nodup := wf_objDictNodup S a kvs hwf hga
                have hkid : ∀ kv ∈ kvs, ∀ w, List.lookup kv.fst ddkvs = some w →
                    reprOk S w (kidTree kv.fst kids) = true := by
                  intro kv _ w hw
                  exact reprKids_lookup kids S ddkvs hkids kv.fst w hw
                have hreg : (da :: kidRegion (fun k => kidTree k kids) kvs).Nodup := by
                  rw [List.nodup_cons]
                  refine ⟨fun hc => hdan (kidRegion_sub_kids kids kvs da hc), ?_⟩
                  exact nodup_kidRegion kids kvs hndk srckeys
                have hsep2 : ∀ kv ∈ kvs, ∀ b, Reaches S kv.snd b →
                    b < S.next ∧ b ∉ (da :: kidRegion (fun k => kidTree k kids) kvs) := by
                  intro kv hkv b hb
                  have hmem : kv.snd ∈ objVals (Obj.dict kvs) := by
                    rw [objVals]
                    exact List.mem_map.mpr ⟨kv, hkv, rfl⟩
                  have h := hsep b (Reaches.via a (Obj.dict kvs) kv.snd b hga hmem hb)
                  refine ⟨h.1, ?_⟩
                  intro hc
                  rcases List.mem_cons.mp hc with hc1 | hc2
                  · exact h.2 (by rw [hc1, addrsT]; exact List.mem_cons_self _ _)
                  · refine h.2 ?_
                    rw [addrsT]
                    exact List.mem_cons.mpr (Or.inr (kidRegion_sub_kids kids kvs b hc2))
                obtain ⟨⟨hfr, hnx, hwf2⟩, _⟩ :=
                  hQi kvs da ov S ddkvs (fun k => kidTree k kids) hwf hdd hkid hreg srckeys hsep2
                refine ⟨?_, hnx, hwf2⟩
                intro x hx hnx2
                rw [addrsT] at hnx2
                refine hfr x hx ?_
                intro hc
                rcases List.mem_cons.mp hc with hc1 | hc2
                · exact hnx2 (by rw [hc1]; exact List.mem_cons_self _ _)
                · exact hnx2 (List.mem_cons.mpr (Or.inr (kidRegion_sub_kids kids kvs x hc2)))
        simp only [mergeTruthy, hga]
        cases hq : mergeItems fuel kvs dst ov S with
        | mk r S2 =>
          rw [hq] at hout
          simp only [] at hout
          cases r with
          | ok u => exact hout
          | err e => exact hout
          | fuelOut => exact hout

theorem lemP (fuel : Nat) (hQt : Qtstmt fuel) : Pstmt (fuel + 1) := by
  intro src dst ov S t hwf ht hnd hsep
  by_cases hf : pyFalsy S src = true
  · simp only [merge]
    rw [if_pos hf]
    exact ⟨fun x _ _ => rfl, le_refl _, hwf⟩
  · simp only [merge]
    rw [if_neg hf]
    cases dst with
    | ref a =>
      simp only []
      exact hQt src (PVal.ref a) ov S t hwf ht hnd hsep
    | int n =>
      simp only []
      exact hQt src (PVal.int n) ov S t hwf ht hnd hsep
    | str s =>
      simp only []
      exact hQt src (PVal.str s) ov S t hwf ht hnd hsep
    | none =>
      simp only []
      have hwfA : StoreWF (S.alloc (Obj.dict [])) := wf_alloc S _ hwf (by rw [objDictNodup]; simp)
      have htre : reprOk (S.alloc (Obj.dict [])) (PVal.ref S.next)
          (DTree.dnode S.next DKids.nil) = true := by
        rw [reprOk, get_alloc_self S _ hwf]
        simp only [reprKids]
        simp
      have hsep2 : ∀ b, Reaches (S.alloc (Obj.dict [])) src b →
          b < (S.alloc (Obj.dict [])).next ∧ b ∉ addrsT (DTree.dnode S.next DKids.nil) := by
        have hfr0 : ∀ c, Reaches S src c → (S.alloc (Obj.dict [])).get c = S.get c := by
          intro c hc
          exact get_alloc_lt S _ c (hsep c hc).1
        intro b hb
        have hbS := Reaches_frame S _ src hfr0 b hb
        have hlt := (hsep b hbS).1
        rw [alloc_next]
        refine ⟨by omega, ?_⟩
        rw [addrsT, addrsK]
        simp
        omega
      obtain ⟨hfr, hnx, hwf2⟩ :=
        hQt src (PVal.ref S.next) ov (S.alloc (Obj.dict [])) (DTree.dnode S.next DKids.nil)
          hwfA htre (by rw [addrsT, addrsK]; simp) hsep2
      rw [alloc_next] at hnx
      refine ⟨?_, by omega, hwf2⟩
      intro x hx _
      rw [hfr x (by rw [alloc_next]; omega) (by rw [addrsT, addrsK]; simp; omega),
        get_alloc_lt S _ x hx]

theorem mergeStmts_all : ∀ fuel, Pstmt fuel ∧ Qtstmt fuel ∧ Qistmt fuel ∧ Qostmt fuel ∧
    Qdstmt fuel := by
  intro fuel
  induction fuel with
  | zero => exact mergeStmts_zero
  | succ g ih =>
    obtain ⟨hP, hQt, hQi, hQo, hQd⟩ := ih
    exact ⟨lemP g hQt, lemQt g hQi, lemQi g hQo hQi, lemQo g hQd, lemQd g hP⟩

theorem readout_frame_all : ∀ n : Nat,
    (∀ (S S2 : Store) (v : PVal), (∀ b, Reaches S v b → S2.get b = S.get b) →
      readout n S2 v = readout n S v) ∧
    (∀ (S S2 : Store) (kvs : List (String × PVal)),
      (∀ kv ∈ kvs, ∀ b, Reaches S kv.snd b → S2.get b = S.get b) →
      readoutDict n S2 kvs = readoutDict n S kvs) ∧
    (∀ (S S2 : Store) (xs : List PVal),
      (∀ x ∈ xs, ∀ b, Reaches S x b → S2.get b = S.get b) →
      readoutList n S2 xs = readoutList n S xs) := by
  intro n
  induction n with
  | zero => exact ⟨fun _ _ _ _ => rfl, fun _ _ _ _ => rfl, fun _ _ _ _ => rfl⟩
  | succ m ih =>
    obtain ⟨ihv, ihd, ihl⟩ := ih
    refine ⟨?_, ?_, ?_⟩
    · intro S S2 v h
      cases v with
      | none => rfl
      | int n2 => rfl
      | str s => rfl
      | ref a =>
        have hga : S2.get a = S.get a := h a (Reaches.here a)
        simp only [readout, hga]
        cases hg : S.get a with
        | none => rfl
        | some o =>
          cases o with
          | dict kvs =>
            simp only []
            rw [ihd S S2 kvs ?_]
            intro kv hkv b hb
            refine h b (Reaches.via a (Obj.dict kvs) kv.snd b hg ?_ hb)
            rw [objVals]
            exact List.mem_map.mpr ⟨kv, hkv, rfl⟩
          | list xs =>
            simp only []
            rw [ihl S S2 xs ?_]
            intro x hx b hb
            refine h b (Reaches.via a (Obj.list xs) x b hg ?_ hb)
            rw [objVals]
            exact hx
    · intro S S2 kvs h
      cases kvs with
      | nil => rfl
      | cons kv rest =>
        obtain ⟨k, v⟩ := kv
        simp only [readoutDict]
        rw [ihv S S2 v (h (k, v) (List.mem_cons_self _ _)),
          ihd S S2 rest (fun kv2 hkv2 => h kv2 (List.mem_cons.mpr (Or.inr hkv2)))]
    · intro S S2 xs h
      cases xs with
      | nil => rfl
      | cons x rest =>
        simp only [readoutList]
        rw [ihv S S2 x (h x (List.mem_cons_self _ _)),
          ihl S S2 rest (fun x2 hx2 => h x2 (List.mem_cons.mpr (Or.inr hx2)))]

/-- C5 (amended): merge leaves every structure reachable from the source unchanged, provided the
destination spine (the destination dict, its nested dict bindings and directly bound lists, as
captured by a duplicate-free representation tree) is disjoint from the addresses reachable from
the source; without that separation the source can be mutated. -/
theorem merge_preserves_unshared_source (fuel n : Nat) (src dst : PVal) (ov : Bool)
    (S : Store) (t : DTree) (hwf : StoreWF S) (ht : reprOk S dst t = true)
    (hnd : (addrsT t).Nodup)
    (hsep : ∀ b, Reaches S src b → b < S.next ∧ b ∉ addrsT t) :
    readout n (merge fuel src dst ov S).2 src = readout n S src := by
  obtain ⟨hP, _⟩ := mergeStmts_all fuel
  obtain ⟨hfr, _, _⟩ := hP src dst ov S t hwf ht hnd hsep
  exact (readout_frame_all n).1 S _ src (fun b hb => hfr b (hsep b hb).1 (hsep b hb).2)

theorem merge_preserves_unshared_source_witness :
    readout 6 (merge 6 (PVal.ref 1) (PVal.ref 0) true c5S).2 (PVal.ref 1) =
      readout 6 c5S (PVal.ref 1) := by
  apply merge_preserves_unshared_source 6 6 (PVal.ref 1) (PVal.ref 0) true c5S
    (DTree.dnode 0 (DKids.cons "k" (DTree.lnode 3) DKids.nil)) (by decide) (by decide)
    (by decide)
  intro b hb
  cases hb with
  | here => exact ⟨by decide, by decide⟩
  | via a o v b2 hget hmem hr =>
    rw [show c5S.get 1 = some (Obj.dict [("m", PVal.ref 2)]) from rfl] at hget
    cases hget
    simp [objVals] at hmem
    subst hmem
    cases hr with
    | here => exact ⟨by decide, by decide⟩
    | via a2 o2 v2 b3 hget2 hmem2 hr2 =>
      rw [show c5S.get 2 = some (Obj.list [PVal.int 5]) from rfl] at hget2
      cases hget2
      simp [objVals] at hmem2
      subst hmem2
      cases hr2

/-- C3: materializing the directory src containing exactly the regular files a.txt and b.txt with
the exclusion set containing /src/b.txt produces a destination tree whose only file under dst is
a.txt, for any glob matcher that matches the excluded path against itself and does not match
/src/a.txt against it. -/
theorem copy_excludes_child (globF : String → List (List String))
    (render : List String → String) (matcher : String → String → Bool)
    (hself : matcher (renderPath ["src", "b.txt"]) (renderPath ["src", "b.txt"]) = true)
    (hother : matcher (renderPath ["src", "a.txt"]) (renderPath ["src", "b.txt"]) = false) :
    (copy globF render matcher 4 ["src"] ["src"] ["dst"] [["src", "b.txt"]] true c3FS).files
      = [(["src", "a.txt"], "A"), (["src", "b.txt"], "B"), (["dst", "a.txt"], "A")] ∧
    (copy globF render matcher 4 ["src"] ["src"] ["dst"] [["src", "b.txt"]] true
      c3FS).files.lookup ["dst", "a.txt"] = some "A" ∧
    (∀ q ∈ (copy globF render matcher 4 ["src"] ["src"] ["dst"] [["src", "b.txt"]] true
        c3FS).files.map Prod.fst, q.take 1 = ["dst"] → q = ["dst", "a.txt"]) := by
  have h1 : matcher "/src/b.txt" "/src/b.txt" = true := hself
  have h2 : matcher "/src/a.txt" "/src/b.txt" = false := hother
  have he1 : "a.txt".endsWith ".template" = false := rfl
  have hmain : (copy globF render matcher 4 ["src"] ["src"] ["dst"] [["src", "b.txt"]] true
      c3FS).files
      = [(["src", "a.txt"], "A"), (["src", "b.txt"], "B"), (["dst", "a.txt"], "A")] := by
    simp [copy, c3FS, childrenOf, isFile, isDir, hasStar, strHasStar,
      pathName, renderPath, mkdirParents, writeFile, readFile, h1, h2, he1]
  refine ⟨hmain, ?_, ?_⟩
  · rw [hmain]
    rfl
  · intro q hq hq2
    rw [hmain] at hq
    simp at hq
    rcases hq with h | h | h
    · subst h
      exact absurd hq2 (by decide)
    · subst h
      exact absurd hq2 (by decide)
    · exact h

theorem copy_excludes_child_witness :
    matcher_c3 (renderPath ["src", "b.txt"]) (renderPath ["src", "b.txt"]) = true ∧
    (copy (fun _ => []) (fun _ => "") matcher_c3 4 ["src"] ["src"] ["dst"]
      [["src", "b.txt"]] true c3FS).files.lookup ["dst", "a.txt"] = some "A" :=
  ⟨by decide, (copy_excludes_child (fun _ => []) (fun _ => "") matcher_c3
    (by decide) (by decide)).2.1⟩

end Pkr
